import Mathlib

/-!
Verification development for the `exai` context-gathering pipeline.

This file gives a shallow embedding, in Lean 4, of the core of the
repository: the static pre-filter and AI-pattern matcher
(`src/context/filter.ts`), the recursive file reader
(`src/context/reader.ts`), the tree renderer (`src/context/tree.ts`),
the content reducer (`src/context/compress.ts`), the full gather
pipeline (`src/context/gather.ts`), the cache-key helper and unified
cache (`src/ai/cache.ts`), and the cache-key derivation of the CLI
adapter (`src/ai/context.ts`).

Modelling conventions:
- JavaScript strings are modelled by Lean `String`; all string
  operations used by the source (split, trim, toLowerCase, startsWith,
  endsWith, includes, indexOf) are implemented below directly on the
  underlying character list so that every definition evaluates by
  kernel reduction.  `toLowerCase` is modelled as ASCII lowering and
  `localeCompare` / default `sort()` as code-point lexicographic
  comparison; the claims under study only involve ASCII data.
- The filesystem is modelled by the inductive `FSNode`; the boolean
  flags on its constructors model whether `statSync` / `readFileSync` /
  `readdirSync` succeed, mirroring the try/catch blocks of the source.
- Recursive directory walks are defined structurally with an explicit
  `fuel` level counter; the source's depth guard (`depth > maxDepth`)
  makes the zero-fuel branch unreachable for the fuel supplied by the
  entry points, and keeping the recursion structural lets every
  concrete scenario evaluate by `decide`.
- `Date.now()` is an explicit `now : Nat` argument (epoch ms); a cache
  file's mtime coincides with the stored `timestamp` because the model
  writes both atomically, as `writeFileSync` does.
- SHA-256 (`createHash('sha256')`) is treated as an abstract digest
  function `digest : String → String` applied to the exact byte
  sequence the source feeds to `hash.update`; properties that need
  collision-freedom are stated for an arbitrary injective digest.
-/

namespace Exai

/-! ### Character and string primitives (models of the JS string API) -/

/-- ASCII lower-casing of one character (model of the effect of
`String.prototype.toLowerCase` on the ASCII range). -/
def charLower (c : Char) : Char :=
  if 'A' ≤ c ∧ c ≤ 'Z' then Char.ofNat (c.toNat + 32) else c

/-- Model of `s.toLowerCase()`. -/
def strLower (s : String) : String :=
  String.mk (s.data.map charLower)

/-- The whitespace characters trimmed by `String.prototype.trim`
(restricted to the common ASCII ones). -/
def isWsChar (c : Char) : Bool :=
  c == ' ' || c == '\t' || c == '\n' || c == '\r'

/-- Model of `s.trim()`. -/
def strTrim (s : String) : String :=
  String.mk (((s.data.dropWhile isWsChar).reverse.dropWhile isWsChar).reverse)

/-- Model of `s.trimEnd()`. -/
def strTrimEnd (s : String) : String :=
  String.mk ((s.data.reverse.dropWhile isWsChar).reverse)

/-- `splitAux p cs cur` accumulates the current (reversed) chunk `cur`
while scanning `cs`; model of the splitting loop of
`String.prototype.split` with a single-character-class separator. -/
def splitAux (p : Char → Bool) : List Char → List Char → List String
  | [], cur => [String.mk cur.reverse]
  | c :: rest, cur =>
    if p c then String.mk cur.reverse :: splitAux p rest []
    else splitAux p rest (c :: cur)

/-- Model of `s.split(sep)` for a character-class separator; like the
JS original it always returns a non-empty list. -/
def strSplit (p : Char → Bool) (s : String) : List String :=
  splitAux p s.data []

/-- Model of `s.startsWith(pre)`. -/
def strStartsWith (s pre : String) : Bool :=
  pre.data.isPrefixOf s.data

/-- Model of `s.endsWith(suf)`. -/
def strEndsWith (s suf : String) : Bool :=
  suf.data.isSuffixOf s.data

/-- Model of `s.includes(c)` for a single character. -/
def strContainsChar (s : String) (c : Char) : Bool :=
  s.data.any (· == c)

/-- Infix test on character lists (model of `String.prototype.includes`
for a multi-character needle). -/
def listInfix (pat : List Char) : List Char → Bool
  | [] => pat.isEmpty
  | c :: rest => pat.isPrefixOf (c :: rest) || listInfix pat rest

/-- Model of `s.includes(pat)`. -/
def containsSub (s pat : String) : Bool :=
  listInfix pat.data s.data

/-- Model of `s.indexOf('//')`: index of the first occurrence of two
consecutive slashes, if any. -/
def indexOfSlashes : List Char → Option Nat
  | '/' :: '/' :: _ => some 0
  | _ :: rest => (indexOfSlashes rest).map (· + 1)
  | [] => none

/-- JS `.length` of a string (the claims only involve characters in the
basic plane, where UTF-16 length and character count agree). -/
def strLen (s : String) : Nat := s.data.length

/-- UTF-8 byte length of one character; model of the per-character cost
used by `Buffer.byteLength(s, 'utf-8')`. -/
def charUtf8Len (c : Char) : Nat :=
  if c.toNat < 0x80 then 1
  else if c.toNat < 0x800 then 2
  else if c.toNat < 0x10000 then 3
  else 4

/-- Model of `Buffer.byteLength(s, 'utf-8')`. -/
def byteLen (s : String) : Nat :=
  s.data.foldl (fun n c => n + charUtf8Len c) 0

/-- Lexicographic (code-point) comparison of character lists; model of
the ordering used by `localeCompare` and default `Array.sort()` on the
ASCII data the claims involve. -/
def lexLe : List Char → List Char → Bool
  | [], _ => true
  | _ :: _, [] => false
  | a :: as, b :: bs =>
    if a = b then lexLe as bs else decide (a < b)

/-- String comparison derived from `lexLe`. -/
def strLeB (a b : String) : Bool := lexLe a.data b.data

/-- Model of `Array.prototype.join(sep)`. -/
def joinSep (sep : String) : List String → String
  | [] => ""
  | [x] => x
  | x :: rest => x ++ sep ++ joinSep sep rest

/-- Concatenation of a list of strings (no separator). -/
def strConcat : List String → String
  | [] => ""
  | x :: rest => x ++ strConcat rest

/-- One decimal digit as a character. -/
def digitChar (d : Nat) : Char := Char.ofNat (48 + d)

/-- Little-endian decimal digits of `n`, with explicit structural fuel
(`fuel ≥ n` suffices). -/
def digitsRevAux : Nat → Nat → List Nat
  | _, 0 => []
  | 0, _ + 1 => []
  | fuel + 1, n + 1 => ((n + 1) % 10) :: digitsRevAux fuel ((n + 1) / 10)

/-- Little-endian decimal digits of `n`. -/
def digitsRev (n : Nat) : List Nat := digitsRevAux n n

/-- Decimal rendering of a natural number; model of the JS
number-to-string conversion (`JSON.stringify(n)`, template literals)
for the non-negative integers the source passes around. -/
def natToString (n : Nat) : String :=
  if n = 0 then "0" else String.mk ((digitsRev n).reverse.map digitChar)

/-- Value of a little-endian digit list (inverse of `digitsRev`). -/
def fromDigitsRev : List Nat → Nat
  | [] => 0
  | d :: rest => d + 10 * fromDigitsRev rest

/-- Stable insertion of a string into a list sorted by `strLeB`. -/
def insStr (x : String) : List String → List String
  | [] => [x]
  | y :: rest => if strLeB y x then y :: insStr x rest else x :: y :: rest

/-- Model of `[...strings].sort()` (stable, lexicographic). -/
def sortStrings (l : List String) : List String :=
  l.foldr insStr []

/-! ### Pre-filter (`src/context/filter.ts`)

Faithful transcriptions of the constant sets and the predicates
`shouldPreExcludeDir`, `shouldPreExcludeFile`, `shouldPreExcludeFileName`
and `matchesAiExclusion`.  The JS `Set` lookups become list membership
tests (`List.contains`), which is observationally identical. -/

/-- `ALWAYS_EXCLUDE_DIRS`: directories that never appear in context or tree. -/
def ALWAYS_EXCLUDE_DIRS : List String :=
  ["node_modules", ".git", ".svn", ".hg", "__pycache__", ".pytest_cache",
   ".mypy_cache", ".ruff_cache", ".tox", ".npm", ".yarn", ".pnpm-store",
   ".cache", ".parcel-cache", ".turbo", ".sass-cache", "bower_components",
   "Pods", ".gradle", ".terraform"]

/-- `BINARY_EXTENSIONS`: binary/useless file extensions. -/
def BINARY_EXTENSIONS : List String :=
  [".png", ".jpg", ".jpeg", ".gif", ".bmp", ".ico", ".svg", ".webp", ".avif",
   ".mp3", ".mp4", ".avi", ".mov", ".wmv", ".flv", ".webm", ".ogg", ".wav",
   ".zip", ".tar", ".gz", ".bz2", ".7z", ".rar", ".xz",
   ".exe", ".dll", ".so", ".dylib", ".bin", ".msi",
   ".pdf", ".doc", ".docx", ".xls", ".xlsx", ".ppt", ".pptx",
   ".woff", ".woff2", ".ttf", ".eot", ".otf",
   ".pyc", ".pyo", ".class", ".o", ".obj",
   ".map"]

/-- `ALWAYS_EXCLUDE_FILES`: OS junk and env secrets. -/
def ALWAYS_EXCLUDE_FILES : List String :=
  [".ds_store", ".dev.vars", "thumbs.db", "desktop.ini"]

/-- `LOCK_FILES`: dependency lock files. -/
def LOCK_FILES : List String :=
  ["package-lock.json", "yarn.lock", "pnpm-lock.yaml", "bun.lock",
   "bun.lockb", "composer.lock", "gemfile.lock", "cargo.lock", "poetry.lock"]

/-- `TEST_DIR_NAMES`: test directory names. -/
def TEST_DIR_NAMES : List String :=
  ["__tests__", "__mocks__", "__snapshots__", "__fixtures__"]

/-- `TEST_FILE_SUFFIXES`: test file suffixes. -/
def TEST_FILE_SUFFIXES : List String :=
  [".test.ts", ".test.tsx", ".test.js", ".test.jsx", ".test.mjs", ".test.cjs",
   ".spec.ts", ".spec.tsx", ".spec.js", ".spec.jsx", ".spec.mjs", ".spec.cjs",
   "_test.py", "_test.go", "_test.rb", "_spec.rb",
   "_test.cpp", "_test.cc", "_test.cxx", "_test.c", "_test.rs"]

/-- `TEST_FILE_PREFIXES`: test file prefixes. -/
def TEST_FILE_PREFIXES : List String := ["test_"]

/-- `isTestFile(fileName)`. -/
def isTestFile (fileName : String) : Bool :=
  let lower := strLower fileName
  if TEST_FILE_SUFFIXES.any (fun suffix => strEndsWith lower suffix) then true
  else if TEST_FILE_PREFIXES.any (fun pre => strStartsWith lower pre) then true
  else false

/-- `isTestDir(dirName)`. -/
def isTestDir (dirName : String) : Bool :=
  TEST_DIR_NAMES.contains dirName

/-- `shouldPreExcludeDir(dirName, extra?, allowTestFiles = false)`. -/
def shouldPreExcludeDir (dirName : String) (extra : Option (List String))
    (allowTestFiles : Bool) : Bool :=
  if ALWAYS_EXCLUDE_DIRS.contains dirName then true
  else if (match extra with
            | some es => es.any (fun e => strLower e == strLower dirName)
            | none => false) then true
  else if !allowTestFiles && isTestDir dirName then true
  else false

/-- Extension starting at the last `'.'` of the (already lower-cased)
name, if the name contains a dot; model of
`lower.lastIndexOf('.')` / `lower.slice(dotIdx)`. -/
def extFromLastDot : List Char → Option String
  | [] => none
  | c :: rest =>
    match extFromLastDot rest with
    | some e => some e
    | none => if c == '.' then some (String.mk (c :: rest)) else none

/-- `shouldPreExcludeFileName(fileName, allowTestFiles = false)`. -/
def shouldPreExcludeFileName (fileName : String) (allowTestFiles : Bool) : Bool :=
  let lower := strLower fileName
  if ALWAYS_EXCLUDE_FILES.contains lower then true
  else if LOCK_FILES.contains lower then true
  else if (match extFromLastDot lower.data with
            | some ext => BINARY_EXTENSIONS.contains ext
            | none => false) then true
  else if !allowTestFiles && isTestFile lower then true
  else false

/-- `shouldPreExcludeFile(fileName, fileSize, maxFileSize = 512 KiB,
allowTestFiles = false)`. -/
def shouldPreExcludeFile (fileName : String) (fileSize maxFileSize : Nat)
    (allowTestFiles : Bool) : Bool :=
  if shouldPreExcludeFileName fileName allowTestFiles then true
  else if maxFileSize < fileSize then true
  else false

/-- Path split on `/` or `\` (model of `relativePath.split(/[/\\]/)`). -/
def splitPath (s : String) : List String :=
  strSplit (fun c => c == '/' || c == '\\') s

/-- Evaluation of one AI-exclusion pattern against the path segments;
the body of the `for` loop of `matchesAiExclusion` (`continue` becomes
`false`). -/
def matchPattern (parts : List String) (pattern : String) : Bool :=
  let p := strTrim pattern
  if p == "" then false
  else if !strContainsChar p '*' && !strContainsChar p '?' then
    if parts.any (fun seg => strLower seg == strLower p) then true
    else
      let fileName := parts.getLastD ""
      if strLower fileName == strLower p then true
      else false
  else if strStartsWith p "*." then
    let ext := String.mk (p.data.drop 1)
    let fileName := parts.getLastD ""
    strEndsWith (strLower fileName) (strLower ext)
  else false

/-- `matchesAiExclusion(relativePath, aiExcludePatterns)`: first
matching pattern short-circuits with `true`. -/
def matchesAiExclusion (relativePath : String) (aiExcludePatterns : List String) : Bool :=
  let parts := splitPath relativePath
  aiExcludePatterns.any (matchPattern parts)

/-! ### Filesystem model and file reader (`src/context/reader.ts`) -/

/-- A filesystem entry.  The boolean flags model the outcome of the
syscalls the walker wraps in try/catch: `statOk` for `statSync`,
`readOk` for `readFileSync`, `listOk` for `readdirSync`.  `size` is the
`statSync` size of the file and `content` the text obtained when the
read succeeds. -/
inductive FSNode where
  | file (name content : String) (size : Nat) (statOk readOk : Bool)
  | dir (name : String) (children : List FSNode) (listOk : Bool)

/-- Name of an entry (the `dirent.name`). -/
def FSNode.name : FSNode → String
  | .file n _ _ _ _ => n
  | .dir n _ _ => n

/-- `entry.isDirectory()`. -/
def FSNode.isDir : FSNode → Bool
  | .file .. => false
  | .dir .. => true

/-- Stable insertion for the by-name sort of directory entries. -/
def insByName (x : FSNode) : List FSNode → List FSNode
  | [] => [x]
  | y :: rest => if strLeB y.name x.name then y :: insByName x rest else x :: y :: rest

/-- `entries.sort((a, b) => a.name.localeCompare(b.name))` (stable). -/
def sortByName (l : List FSNode) : List FSNode :=
  l.foldr insByName []

/-- A `FileEntry` of the reader: relative path, absolute path, content,
size in bytes, detected language. -/
structure FileEntry where
  relativePath : String
  absolutePath : String
  content : String
  size : Nat
  language : String
deriving DecidableEq

/-- One skip record `{path, reason}`. -/
structure SkipRecord where
  path : String
  reason : String
deriving DecidableEq

/-- `path.extname(name)`: substring from the last `'.'`, except that a
dot in the leading position does not count (so `.env` has no
extension). -/
def extnameAux : List Char → Option String
  | [] => none
  | _ :: rest => extFromLastDot rest

/-- `path.extname(name)` as a string (empty when there is none). -/
def extname (name : String) : String :=
  match name.data with
  | [] => ""
  | c :: rest => ((extnameAux (c :: rest)).getD "")

/-- The extension-to-language map of `extToLanguage`. -/
def langMap : List (String × String) :=
  [(".ts", "typescript"), (".tsx", "typescript"),
   (".js", "javascript"), (".jsx", "javascript"), (".mjs", "javascript"), (".cjs", "javascript"),
   (".py", "python"),
   (".rs", "rust"),
   (".go", "go"),
   (".java", "java"),
   (".kt", "kotlin"),
   (".rb", "ruby"),
   (".php", "php"),
   (".cs", "csharp"),
   (".cpp", "cpp"), (".cc", "cpp"), (".cxx", "cpp"), (".c", "c"), (".h", "c"),
   (".swift", "swift"),
   (".sh", "bash"), (".bash", "bash"), (".zsh", "bash"),
   (".sql", "sql"),
   (".html", "html"), (".htm", "html"),
   (".css", "css"), (".scss", "scss"), (".sass", "sass"), (".less", "less"),
   (".json", "json"),
   (".yaml", "yaml"), (".yml", "yaml"),
   (".toml", "toml"),
   (".xml", "xml"),
   (".md", "markdown"),
   (".graphql", "graphql"), (".gql", "graphql"),
   (".dockerfile", "dockerfile"),
   (".tf", "hcl"),
   (".proto", "protobuf"),
   (".vue", "vue"),
   (".svelte", "svelte")]

/-- `extToLanguage(ext)`: map lookup on the lower-cased extension,
defaulting to the empty string. -/
def extToLanguage (ext : String) : String :=
  match langMap.lookup (strLower ext) with
  | some lang => lang
  | none => ""

/-- `path.join` of a parent path and an entry name (the model uses `/`
as separator throughout). -/
def pathJoin (parent name : String) : String :=
  if parent == "" then name else parent ++ "/" ++ name

/-- The fields of `WalkContext` that configure the walk (the two
accumulator arrays become the function's result). -/
structure WalkCfg where
  aiExcludePatterns : List String
  extraExcludeDirs : Option (List String)
  maxFileSize : Nat
  allowTestFiles : Bool
  maxDepth : Nat

/-- Result of a walk: the collected `FileEntry`s and `SkipRecord`s, in
traversal order. -/
abbrev WalkOut := List FileEntry × List SkipRecord

/-- One directory level of `walkDir`: processes the (already sorted)
entries of the current directory in order, delegating descent into a
subdirectory to `recurse`.  `curRel` is the path of the current
directory relative to the walk root (`""` at the root itself), `curAbs`
its absolute path, and `depth` the depth value `walkDir` was called
with for this directory. -/
def walkLevel (cfg : WalkCfg) (recurse : List FSNode → String → String → Nat → WalkOut) :
    List FSNode → String → String → Nat → WalkOut
  | [], _, _, _ => ([], [])
  | FSNode.file name content size statOk readOk :: rest, curRel, curAbs, depth =>
    let relPath := pathJoin curRel name
    let tail := walkLevel cfg recurse rest curRel curAbs depth
    if !statOk then (tail.1, ⟨relPath, "stat-error"⟩ :: tail.2)
    else if shouldPreExcludeFile name size cfg.maxFileSize cfg.allowTestFiles then
      (tail.1, ⟨relPath, "pre-filtered"⟩ :: tail.2)
    else if matchesAiExclusion relPath cfg.aiExcludePatterns then
      (tail.1, ⟨relPath, "ai-excluded"⟩ :: tail.2)
    else if !readOk then (tail.1, ⟨relPath, "read-error"⟩ :: tail.2)
    else
      (⟨relPath, pathJoin curAbs name, content, size, extToLanguage (extname name)⟩ :: tail.1,
       tail.2)
  | FSNode.dir name children listOk :: rest, curRel, curAbs, depth =>
    let relPath := pathJoin curRel name
    let tail := walkLevel cfg recurse rest curRel curAbs depth
    if shouldPreExcludeDir name cfg.extraExcludeDirs cfg.allowTestFiles then tail
    else if matchesAiExclusion relPath cfg.aiExcludePatterns then
      (tail.1, ⟨relPath, "ai-excluded"⟩ :: tail.2)
    else
      let sub :=
        if cfg.maxDepth < depth + 1 then ([], [])
        else if !listOk then ([], [])
        else recurse (sortByName children) relPath (pathJoin curAbs name) (depth + 1)
      (sub.1 ++ tail.1, sub.2 ++ tail.2)

/-- `walkDir`, made structural with an explicit level counter: level
`f + 1` handles one directory and descends with level `f`.  The
source's depth guard (`depth > maxDepth`, checked before descending)
makes the zero branch unreachable when the walk starts with fuel
`maxDepth + 1`. -/
def walkFuel (cfg : WalkCfg) : Nat → List FSNode → String → String → Nat → WalkOut
  | 0 => fun _ _ _ _ => ([], [])
  | f + 1 => walkLevel cfg (walkFuel cfg f)

/-- A validated root path together with the directory it denotes. -/
structure RootDir where
  absPath : String
  node : FSNode

/-- The walk of one root (`walkDir(rootPath, rootPath, 0, maxDepth,
ctx)`): read the root's entries (silently stopping if `readdirSync`
fails or the path is not a directory), sort them, then walk. -/
def walkRoot (cfg : WalkCfg) (root : RootDir) : WalkOut :=
  match root.node with
  | .file .. => ([], [])
  | .dir _ children listOk =>
    if !listOk then ([], [])
    else walkFuel cfg (cfg.maxDepth + 1) (sortByName children) "" root.absPath 0

/-- `ReadOptions` with optional fields (`none` models an absent key). -/
structure ReadOptions where
  aiExcludePatterns : Option (List String) := none
  extraExcludeDirs : Option (List String) := none
  maxFileSize : Option Nat := none
  maxDepth : Option Nat := none
  allowTestFiles : Option Bool := none

/-- `ReadResult`. -/
structure ReadResult where
  files : List FileEntry
  totalFiles : Nat
  totalSize : Nat
  skipped : List SkipRecord
deriving DecidableEq

/-- The `WalkCfg` obtained from `readFiles`'s option destructuring and
its defaults. -/
def readCfg (options : ReadOptions) : WalkCfg :=
  { aiExcludePatterns := options.aiExcludePatterns.getD []
    extraExcludeDirs := options.extraExcludeDirs
    maxFileSize := options.maxFileSize.getD (64 * 1024)
    allowTestFiles := options.allowTestFiles.getD false
    maxDepth := options.maxDepth.getD 6 }

/-- `readFiles(paths, options)`: walk each root in order and
aggregate. -/
def readFiles (roots : List RootDir) (options : ReadOptions) : ReadResult :=
  let cfg := readCfg options
  let out := roots.foldr (fun r acc =>
    let w := walkRoot cfg r
    (w.1 ++ acc.1, w.2 ++ acc.2)) (([], []) : WalkOut)
  { files := out.1
    totalFiles := out.1.length
    totalSize := (out.1.map (fun f => f.size)).sum
    skipped := out.2 }

/-- `formatAsMarkdown(result, rootLabel?)`. -/
def formatAsMarkdown (files : List FileEntry) (rootLabel : Option String) : String :=
  let headerSections : List String :=
    match rootLabel with
    | some label => ["# Context: " ++ label ++ "\n"]
    | none => []
  let fileSections : List String :=
    files.flatMap (fun file =>
      let fence := if file.language != "" then "```" ++ file.language else "```"
      ["## " ++ file.relativePath ++ "\n", fence, file.content, "```\n"])
  joinSep "\n" (headerSections ++ fileSections)

/-! ### Tree renderer (`src/context/tree.ts`) -/

/-- `TreeOptions` with optional fields. -/
structure TreeOptions where
  maxDepth : Option Nat := none
  maxItems : Option Nat := none
  extraExcludeDirs : Option (List String) := none
  excludePatterns : Option (List String) := none
  allowTestFiles : Option Bool := none

/-- The entry filter of `treeHelper`: pre-filter for directories and
file names, then the exclude patterns (matched against the entry NAME
only). -/
def treeKeep (extraExcludeDirs : Option (List String))
    (excludePatterns : Option (List String)) (allowTestFiles : Bool)
    (e : FSNode) : Bool :=
  if e.isDir && shouldPreExcludeDir e.name extraExcludeDirs allowTestFiles then false
  else if !e.isDir && shouldPreExcludeFileName e.name allowTestFiles then false
  else if (match excludePatterns with
            | some ps => !ps.isEmpty && matchesAiExclusion e.name ps
            | none => false) then false
  else true

/-- Stable insertion for the directories-first, then-by-name sort of
`treeHelper`. -/
def insTreeEnt (x : FSNode) : List FSNode → List FSNode
  | [] => [x]
  | y :: rest =>
    if (y.isDir && !x.isDir) || (y.isDir == x.isDir && strLeB y.name x.name) then
      y :: insTreeEnt x rest
    else x :: y :: rest

/-- The `sort` of `treeHelper` (directories first, then by name). -/
def sortTreeEnts (l : List FSNode) : List FSNode :=
  l.foldr insTreeEnt []

/-- Configuration shared by every `treeHelper` call of one render. -/
structure TreeCfg where
  extraExcludeDirs : Option (List String)
  excludePatterns : Option (List String)
  allowTestFiles : Bool

/-- One level of `treeHelper`: renders the (already filtered and
sorted) entries with box-drawing connectors, delegating descent into a
subdirectory to `recurse`.  `depth` is the depth argument of the
enclosing `treeHelper` call; a child is rendered at `depth - 1`, which
the child checks against zero before listing its own entries. -/
def treeLevel (cfg : TreeCfg) (recurse : List FSNode → Nat → String → List String) :
    List FSNode → Nat → String → List String
  | [], _, _ => []
  | e :: rest, depth, pfx =>
    let isLast := rest.isEmpty
    let connector := if isLast then "└── " else "├── "
    let childPfx := if isLast then "    " else "│   "
    let sub : List String :=
      match e with
      | .file .. => []
      | .dir _ children listOk =>
        if depth - 1 = 0 then []
        else if !listOk then []
        else
          recurse
            (sortTreeEnts (children.filter
              (treeKeep cfg.extraExcludeDirs cfg.excludePatterns cfg.allowTestFiles)))
            (depth - 1) (pfx ++ childPfx)
    (pfx ++ connector ++ e.name) :: (sub ++ treeLevel cfg recurse rest depth pfx)

/-- `treeHelper`, made structural with an explicit level counter (the
depth guard `depth <= 0` makes the zero branch unreachable for the fuel
supplied by `generateTree`). -/
def treeFuel (cfg : TreeCfg) : Nat → List FSNode → Nat → String → List String
  | 0 => fun _ _ _ => []
  | f + 1 => treeLevel cfg (treeFuel cfg f)

/-- The lines generated for one root (`treeHelper(rootPath, maxDepth,
'')`): depth guard, `readdirSync`, filter, sort, then the rendering
loop. -/
def treeRootLines (cfg : TreeCfg) (maxDepth : Nat) (root : FSNode) : List String :=
  match root with
  | .file .. => []
  | .dir _ children listOk =>
    if maxDepth = 0 then []
    else if !listOk then []
    else
      treeFuel cfg (maxDepth + 1)
        (sortTreeEnts (children.filter
          (treeKeep cfg.extraExcludeDirs cfg.excludePatterns cfg.allowTestFiles)))
        maxDepth ""

/-- `path.basename` (the last `/`-separated segment). -/
def basenameStr (s : String) : String :=
  (strSplit (fun c => c == '/') s).getLastD ""

/-- The item-cap loop of `generateTree`: pushes generated lines while
counting `totalItems`; once the count reaches `maxItems` the truncation
marker is pushed and everything after it is dropped.  Returns the kept
lines, the updated count and whether truncation fired. -/
def capLines (maxItems : Nat) : List String → Nat → List String × Nat × Bool
  | [], total => ([], total, false)
  | l :: rest, total =>
    if maxItems ≤ total + 1 then
      ([l, "... (truncated at " ++ natToString maxItems ++ " items)"], total + 1, true)
    else
      let r := capLines maxItems rest (total + 1)
      (l :: r.1, r.2.1, r.2.2)

/-- The per-root loop of `generateTree`: header line, capped generator
lines, then a blank separator line; a truncation aborts the remaining
roots. -/
def genTreeRoots (cfg : TreeCfg) (maxDepth maxItems : Nat) :
    List RootDir → Nat → List String
  | [], _ => []
  | r :: rest, total =>
    let header := basenameStr r.absPath ++ "/"
    let capped := capLines maxItems (treeRootLines cfg maxDepth r.node) total
    if capped.2.2 then header :: capped.1
    else header :: capped.1 ++ [""] ++ genTreeRoots cfg maxDepth maxItems rest capped.2.1

/-- `generateTree(paths, options)`. -/
def generateTree (roots : List RootDir) (options : TreeOptions) : String :=
  let cfg : TreeCfg :=
    { extraExcludeDirs := options.extraExcludeDirs
      excludePatterns := options.excludePatterns
      allowTestFiles := options.allowTestFiles.getD false }
  joinSep "\n" (genTreeRoots cfg (options.maxDepth.getD 6) (options.maxItems.getD 1000) roots 0)

/-! ### Content reducer (`src/context/compress.ts`) -/

/-- `CompressOptions` with optional fields (`none` models an absent
key; a key explicitly set to `undefined`, which JS object spread
distinguishes from absence, is not represented). -/
structure CompressOptions where
  removeComments : Option Bool := none
  minifyWhitespace : Option Bool := none
  extractSignaturesOnly : Option Bool := none
  maxFileLines : Option Nat := none
  preserveImports : Option Bool := none
  preserveExports : Option Bool := none
  preserveTypes : Option Bool := none
  preserveFunctionSignatures : Option Bool := none

/-- The fully-populated option record after `{ ...DEFAULTS, ...options }`. -/
structure CompressOptionsResolved where
  removeComments : Bool
  minifyWhitespace : Bool
  extractSignaturesOnly : Bool
  maxFileLines : Nat
  preserveImports : Bool
  preserveExports : Bool
  preserveTypes : Bool
  preserveFunctionSignatures : Bool

/-- The merge `{ ...DEFAULTS, ...options }` with the `DEFAULTS` record
of the source (note `maxFileLines: 10000`). -/
def resolveCompressOptions (o : CompressOptions) : CompressOptionsResolved :=
  { removeComments := o.removeComments.getD true
    minifyWhitespace := o.minifyWhitespace.getD true
    extractSignaturesOnly := o.extractSignaturesOnly.getD false
    maxFileLines := o.maxFileLines.getD 10000
    preserveImports := o.preserveImports.getD true
    preserveExports := o.preserveExports.getD true
    preserveTypes := o.preserveTypes.getD true
    preserveFunctionSignatures := o.preserveFunctionSignatures.getD true }

/-- `CODE_EXTENSIONS` (a set of language names, despite the name). -/
def CODE_EXTENSIONS : List String :=
  ["typescript", "javascript", "python", "java", "go", "rust",
   "cpp", "c", "csharp", "kotlin", "ruby", "php", "swift"]

/-- `content.split('\n')`. -/
def splitNl (s : String) : List String := strSplit (fun c => c == '\n') s

/-- A character is a word character for the `\w` regex class. -/
def isWordChar (c : Char) : Bool :=
  ('a' ≤ c && c ≤ 'z') || ('A' ≤ c && c ≤ 'Z') || ('0' ≤ c && c ≤ '9') || c == '_'

/-- A character matches the `\s` regex class (common ASCII subset). -/
def isRegexWs (c : Char) : Bool := isWsChar c

/-- Consume one-or-more whitespace characters (`\s+`). -/
def eatWs1 : List Char → Option (List Char)
  | c :: rest => if isRegexWs c then some (rest.dropWhile isRegexWs) else none
  | [] => none

/-- Consume a literal string. -/
def eatLit (lit : String) : List Char → Option (List Char)
  | cs => if lit.data.isPrefixOf cs then some (cs.drop lit.data.length) else none

/-- Consume one-or-more word characters (`\w+`). -/
def eatWord1 : List Char → Option (List Char)
  | c :: rest => if isWordChar c then some (rest.dropWhile isWordChar) else none
  | [] => none

/-- `(lit ++ \s+)` as one optional unit: try it, fall back to the
input unchanged (models an optional regex group with backtracking). -/
def tryLitWs (lit : String) (cs : List Char) : List (List Char) :=
  match eatLit lit cs with
  | some cs' =>
    match eatWs1 cs' with
    | some cs'' => [cs'', cs]
    | none => [cs]
  | none => [cs]

/-- Test of the regex
`^(export\s+)?(interface|type|class|function|const|let|var)\s+\w+`. -/
def testDeclPattern (s : String) : Bool :=
  (tryLitWs "export" s.data).any (fun cs =>
    ["interface", "type", "class", "function", "const", "let", "var"].any (fun kw =>
      match eatLit kw cs with
      | some cs₁ =>
        match eatWs1 cs₁ with
        | some cs₂ => (eatWord1 cs₂).isSome
        | none => false
      | none => false))

/-- Test of the regex `^(export\s+)?(async\s+)?function\s+\w+`. -/
def testFunctionPattern (s : String) : Bool :=
  (tryLitWs "export" s.data).any (fun cs₁ =>
    (tryLitWs "async" cs₁).any (fun cs₂ =>
      match eatLit "function" cs₂ with
      | some cs₃ =>
        match eatWs1 cs₃ with
        | some cs₄ => (eatWord1 cs₄).isSome
        | none => false
      | none => false))

/-- Consume `[^)]*\)`: any run of non-`)` characters followed by `)`. -/
def eatParenTail : List Char → Bool
  | [] => false
  | c :: rest => if c == ')' then true else eatParenTail rest

/-- Test of the regex
`^\s*(public|private|protected|static)?\s*(async\s+)?\w+\s*\([^)]*\)`. -/
def testMethodPattern (s : String) : Bool :=
  let cs₀ := s.data.dropWhile isRegexWs
  let afterAccess : List (List Char) :=
    (["public", "private", "protected", "static"].filterMap (fun kw => eatLit kw cs₀)) ++ [cs₀]
  afterAccess.any (fun cs₁ =>
    let cs₂ := cs₁.dropWhile isRegexWs
    (tryLitWs "async" cs₂).any (fun cs₃ =>
      match eatWord1 cs₃ with
      | some cs₄ =>
        match (cs₄.dropWhile isRegexWs) with
        | '(' :: tail => eatParenTail tail
        | _ => false
      | none => false))

/-- The loop of `removeComments`, carrying the `inBlock` flag. -/
def removeCommentsLoop : List String → Bool → List String
  | [], _ => []
  | line :: rest, inBlock =>
    let trimmed := strTrim line
    let inBlock₁ := if containsSub trimmed "/*" then true else inBlock
    if inBlock₁ then
      let inBlock₂ := if containsSub trimmed "*/" then false else inBlock₁
      removeCommentsLoop rest inBlock₂
    else if strStartsWith trimmed "//" || strStartsWith trimmed "#" then
      removeCommentsLoop rest inBlock₁
    else
      let clean :=
        match indexOfSlashes line.data with
        | some idx =>
          if 0 < idx then
            let before := String.mk (line.data.take idx)
            let quotes := (before.data.filter (fun c => c == '\'' || c == '"')).length
            if quotes % 2 = 0 then strTrimEnd before else line
          else line
        | none => line
      clean :: removeCommentsLoop rest inBlock₁

/-- `removeComments(content)` (best-effort, as in the source). -/
def removeComments (content : String) : String :=
  joinSep "\n" (removeCommentsLoop (splitNl content) false)

/-- The consecutive-blank-line filter of `minifyWhitespace`; `prev` is
the previous (trim-end-ed) line of the mapped array, kept or not. -/
def collapseBlanks : List String → Option String → List String
  | [], _ => []
  | l :: rest, prev =>
    let keep :=
      if 0 < strLen (strTrim l) then true
      else
        match prev with
        | some p => !(strLen (strTrim p) = 0)
        | none => true
    if keep then l :: collapseBlanks rest (some l)
    else collapseBlanks rest (some l)

/-- `minifyWhitespace(content)`. -/
def minifyWhitespace (content : String) : String :=
  joinSep "\n" (collapseBlanks ((splitNl content).map strTrimEnd) none)

/-- The per-line test of `extractSignatures`. -/
def isSignatureLine (line : String) : Bool :=
  let trimmed := strTrim line
  if testDeclPattern trimmed || testFunctionPattern trimmed || testMethodPattern trimmed then
    true
  else strStartsWith trimmed "import " || strStartsWith trimmed "export "

/-- `extractSignatures(content)`. -/
def extractSignatures (content : String) : String :=
  joinSep "\n" ((splitNl content).filter isSignatureLine)

/-- `limitLines(content, max)`. -/
def limitLines (content : String) (max : Nat) : String :=
  let lines := splitNl content
  if lines.length ≤ max then content
  else
    joinSep "\n" (lines.take max) ++
      "\n... (" ++ natToString (lines.length - max) ++ " more lines)"

/-- The important-line test of `smartLimit`. -/
def isImportantLine (opts : CompressOptionsResolved) (line : String) : Bool :=
  let t := strTrim line
  (opts.preserveImports && strStartsWith t "import ") ||
  (opts.preserveExports && strStartsWith t "export ") ||
  (opts.preserveTypes && (strStartsWith t "interface " || strStartsWith t "type ")) ||
  (opts.preserveFunctionSignatures && testFunctionPattern t)

/-- Insert an index into a sorted duplicate-free index list (the model
of the JS `Set` of `smartLimit`, whose contents are numerically sorted
before use). -/
def insIdx (i : Nat) : List Nat → List Nat
  | [] => [i]
  | j :: rest =>
    if j < i then j :: insIdx i rest
    else if j = i then j :: rest
    else i :: j :: rest

/-- Marking pass of `smartLimit`: for each important line add its index
and the next index (when in range). -/
def markImportant (opts : CompressOptionsResolved) (lines : List String) : List Nat :=
  (List.range lines.length).foldl (fun acc i =>
    if isImportantLine opts (lines.getD i "") then
      if i + 1 < lines.length then insIdx (i + 1) (insIdx i acc) else insIdx i acc
    else acc) []

/-- Budget-filling loop of `smartLimit` (`while (important.size <
maxLines && idx < lines.length)`), structural on the remaining index
count `rem = total - idx`. -/
def fillBudgetAux (maxLines : Nat) : Nat → Nat → List Nat → List Nat
  | 0, _, acc => acc
  | rem + 1, idx, acc =>
    if acc.length < maxLines then fillBudgetAux maxLines rem (idx + 1) (insIdx idx acc)
    else acc

/-- The budget-filling loop started at index `0` over `total` lines. -/
def fillBudget (maxLines total : Nat) (important : List Nat) : List Nat :=
  fillBudgetAux maxLines total 0 important

/-- Emission loop of `smartLimit`: selected lines in order with a gap
marker wherever line numbers jump (`lastIdx` starts at `-2`). -/
def emitSelected (lines : List String) : List Nat → Int → List String
  | [], _ => []
  | i :: rest, lastIdx =>
    let gap : List String := if lastIdx + 1 < (i : Int) then ["  // ..."] else []
    gap ++ (lines.getD i "" :: emitSelected lines rest (i : Int))

/-- `smartLimit(content, maxLines, opts)`. -/
def smartLimit (content : String) (maxLines : Nat) (opts : CompressOptionsResolved) : String :=
  let lines := splitNl content
  if lines.length ≤ maxLines then content
  else
    let important := markImportant opts lines
    let selected := fillBudget maxLines lines.length important
    let body := emitSelected lines selected (-2)
    let lastIdx : Int := match selected.getLast? with | some i => (i : Int) | none => -2
    let tail : List String :=
      if lastIdx < (lines.length : Int) - 1 then
        ["  // ... (" ++ natToString (lines.length - (selected.getLastD 0) - 1) ++ " more lines)"]
      else []
    joinSep "\n" (body ++ tail)

/-- `CompressResult`; the compression ratio is modelled over `ℚ` (the
source computes it in floating point, but the claims only compare it
with exact constants). -/
structure CompressResult where
  files : List FileEntry
  originalSize : Nat
  compressedSize : Nat
  compressionRatio : ℚ
  filesProcessed : Nat

/-- Transformation of a single file inside `compressFiles`. -/
def compressOneFile (opts : CompressOptionsResolved) (file : FileEntry) : FileEntry :=
  let isCode := CODE_EXTENSIONS.contains file.language
  if !isCode then
    let limited := limitLines file.content opts.maxFileLines
    { file with content := limited, size := byteLen limited }
  else
    let content :=
      if opts.extractSignaturesOnly then extractSignatures file.content
      else
        let c₁ := if opts.removeComments then removeComments file.content else file.content
        let c₂ := if opts.minifyWhitespace then minifyWhitespace c₁ else c₁
        -- `if (opts.maxFileLines)` is a JS truthiness test: 0 skips the pass
        if opts.maxFileLines ≠ 0 then smartLimit c₂ opts.maxFileLines opts else c₂
    { file with content := content, size := byteLen content }

/-- `compressFiles(files, options = {})`.  Every branch of the `map`
increments `filesProcessed`, so it equals the file count. -/
def compressFiles (files : List FileEntry) (options : CompressOptions) : CompressResult :=
  let opts := resolveCompressOptions options
  let originalSize := (files.map (fun f => f.size)).sum
  let compressed := files.map (compressOneFile opts)
  let compressedSize := (compressed.map (fun f => f.size)).sum
  { files := compressed
    originalSize := originalSize
    compressedSize := compressedSize
    compressionRatio :=
      if 0 < originalSize then (1 - (compressedSize : ℚ) / (originalSize : ℚ)) * 100 else 0
    filesProcessed := files.length }

/-! ### Gather pipeline (`src/context/gather.ts`)

`gatherContext` is `async` only because of the injected AI filter call;
the model represents the awaited filter as a pure function
`String → List String` and sequences the stages directly.  The
wall-clock `timing` fields are not modelled (they carry no
program-determined information); `verbose` logging is likewise
omitted. -/

/-- `GatherOptions`. -/
structure GatherOptions where
  excludePatterns : Option (List String) := none
  aiFilter : Option (String → List String) := none
  compress : Option Bool := none
  compressOptions : Option CompressOptions := none
  extraExcludeDirs : Option (List String) := none
  maxFileSize : Option Nat := none
  treeOptions : Option TreeOptions := none
  allowTestFiles : Option Bool := none

/-- The `compression` summary of a `GatherResult`. -/
structure CompressionSummary where
  originalSize : Nat
  compressedSize : Nat
  ratio : ℚ

/-- `GatherResult` (without the wall-clock `timing` block). -/
structure GatherResult where
  markdown : String
  tree : String
  fileCount : Nat
  totalSize : Nat
  skippedFiles : List SkipRecord
  aiExcludePatterns : List String
  compression : Option CompressionSummary

/-- `validatePaths(paths)`, on the model filesystem: resolution is a
no-op (roots carry their absolute path), a missing entry is a `.file`
with `statOk = false`... the model keeps only the two failure
conditions the source distinguishes: the claims under study always
call it with valid directories, so it returns the roots unchanged when
every root is a directory and fails otherwise. -/
def validatePaths (roots : List RootDir) : Option (List RootDir) :=
  if roots.all (fun r => r.node.isDir) then some roots else none

/-- The tree options `gatherContext` passes to `generateTree`
(`{ ...options.treeOptions, extraExcludeDirs, excludePatterns,
allowTestFiles }`: the three overridden keys take the gather options'
values even when those are absent). -/
def gatherTreeOptions (o : GatherOptions) (pats : Option (List String)) : TreeOptions :=
  let base := o.treeOptions.getD {}
  { maxDepth := base.maxDepth
    maxItems := base.maxItems
    extraExcludeDirs := o.extraExcludeDirs
    excludePatterns := pats
    allowTestFiles := some (o.allowTestFiles.getD false) }

/-- `gatherTree(paths, options)` (tree only, without the timer). -/
def gatherTree (roots : List RootDir) (o : GatherOptions) : String :=
  generateTree roots (gatherTreeOptions o o.excludePatterns)

/-- `gatherContext(paths, options)`. -/
def gatherContext (roots : List RootDir) (o : GatherOptions) : GatherResult :=
  -- Step 1: tree with pre-filter + manual exclusions
  let tree := generateTree roots (gatherTreeOptions o o.excludePatterns)
  -- Step 2: AI filter returns additional patterns
  let aiPatterns := match o.aiFilter with | some f => f tree | none => []
  let allExcludePatterns := (o.excludePatterns.getD []) ++ aiPatterns
  -- Step 2b: rebuild tree with all exclusions
  let finalTree := generateTree roots (gatherTreeOptions o (some allExcludePatterns))
  -- Step 3: read files with all exclusions
  let readResult := readFiles roots
    { aiExcludePatterns := some allExcludePatterns
      extraExcludeDirs := o.extraExcludeDirs
      maxFileSize := o.maxFileSize
      maxDepth := (o.treeOptions.getD {}).maxDepth
      allowTestFiles := some (o.allowTestFiles.getD false) }
  -- Step 4: optional compression
  let compressed :=
    if o.compress.getD false then some (compressFiles readResult.files (o.compressOptions.getD {}))
    else none
  let finalFiles := match compressed with | some c => c.files | none => readResult.files
  let compression : Option CompressionSummary :=
    match compressed with
    | some c => some ⟨c.originalSize, c.compressedSize, c.compressionRatio⟩
    | none => none
  -- Step 5: markdown assembly
  let rootLabel := joinSep ", " (roots.map (fun r => basenameStr r.absPath))
  let markdown :=
    "# Project Structure\n\n```\n" ++ finalTree ++ "\n```\n\n" ++
      formatAsMarkdown finalFiles (some rootLabel)
  { markdown := markdown
    tree := finalTree
    fileCount := finalFiles.length
    totalSize := byteLen markdown
    skippedFiles := readResult.skipped
    aiExcludePatterns := allExcludePatterns
    compression := compression }

/-! ### Cache-key helper (`src/ai/cache.ts` / `src/ai/context.ts`)

`makeKey(...parts)` feeds each part to `hash.update` — strings
directly, everything else `JSON.stringify`-ed — and returns the hex
SHA-256 digest.  Since the update calls concatenate, the digest is
applied to the concatenation of the serialised parts; the digest
itself is kept abstract. -/

/-- One argument of `makeKey`, tagged with its JS type. -/
inductive KeyPart where
  | pstr (s : String)
  | pbool (b : Bool)
  | pnum (n : Nat)

/-- The byte string a part contributes to the hash (strings as-is,
non-strings through `JSON.stringify`). -/
def serializePart : KeyPart → String
  | .pstr s => s
  | .pbool b => if b then "true" else "false"
  | .pnum n => natToString n

/-- The full byte string `makeKey` hashes. -/
def makeKeyInput (parts : List KeyPart) : String :=
  strConcat (parts.map serializePart)

/-- `makeKey(...parts)`, for an abstract digest function standing for
hex SHA-256. -/
def makeKey (digest : String → String) (parts : List KeyPart) : String :=
  digest (makeKeyInput parts)

/-- The options of the CLI adapter that are relevant to
`generateCacheKey`. -/
structure ContextKeyOptions where
  compress : Option Bool := none
  allowTestFiles : Option Bool := none
  maxFileSize : Option Nat := none
  maxDepth : Option Nat := none
  maxTreeItems : Option Nat := none
  excludePatterns : Option (List String) := none
  compressOptions : Option CompressOptions := none

/-- One present field of the `JSON.stringify`-ed `compressOptions`
object, rendered as a quoted name/value pair. -/
def jsonField (name value : String) : String :=
  "\"" ++ name ++ "\":" ++ value

/-- JSON rendering of a boolean. -/
def jsonBool (b : Bool) : String := if b then "true" else "false"

/-- The contribution of one (possibly absent) field to the serialised
object: `JSON.stringify` skips `undefined` fields. -/
def optPair (n : String) : Option String → List (String × String)
  | some v => [(n, v)]
  | none => []

/-- The name/value pairs contributed by a list of named optional
fields, in order. -/
def slotsPairs : List (String × Option String) → List (String × String)
  | [] => []
  | (n, v) :: rest => optPair n v ++ slotsPairs rest

/-- The field slots of a `CompressOptions` object in declaration
order. -/
def compressSlots (o : CompressOptions) : List (String × Option String) :=
  [("removeComments", o.removeComments.map jsonBool),
   ("minifyWhitespace", o.minifyWhitespace.map jsonBool),
   ("extractSignaturesOnly", o.extractSignaturesOnly.map jsonBool),
   ("maxFileLines", o.maxFileLines.map natToString),
   ("preserveImports", o.preserveImports.map jsonBool),
   ("preserveExports", o.preserveExports.map jsonBool),
   ("preserveTypes", o.preserveTypes.map jsonBool),
   ("preserveFunctionSignatures", o.preserveFunctionSignatures.map jsonBool)]

/-- The name/value pairs of a `CompressOptions` object in declaration
order (absent keys are skipped, as `JSON.stringify` skips `undefined`
fields; the model fixes the key order to the interface's declaration
order, the order the repository's call sites use). -/
def compressOptionPairs (o : CompressOptions) : List (String × String) :=
  slotsPairs (compressSlots o)

/-- `JSON.stringify(options.compressOptions ?? {})`. -/
def jsonCompressOptions (o : CompressOptions) : String :=
  "\x7b" ++ joinSep "," ((compressOptionPairs o).map (fun p => jsonField p.1 p.2)) ++ "\x7d"

/-- The part list `generateCacheKey` passes to `makeKey`. -/
def cacheKeyParts (paths : List String) (options : ContextKeyOptions) : List KeyPart :=
  [.pstr (joinSep "|" (sortStrings paths)),
   .pbool (options.compress.getD true),
   .pbool (options.allowTestFiles.getD false),
   .pnum (options.maxFileSize.getD 0),
   .pnum (options.maxDepth.getD 0),
   .pnum (options.maxTreeItems.getD 0),
   .pstr (joinSep "," (sortStrings (options.excludePatterns.getD []))),
   .pstr (jsonCompressOptions (options.compressOptions.getD {}))]

/-- The byte string whose digest is the cache key. -/
def cacheKeyInput (paths : List String) (options : ContextKeyOptions) : String :=
  makeKeyInput (cacheKeyParts paths options)

/-- `generateCacheKey(paths, options)` for an abstract digest. -/
def generateCacheKey (digest : String → String) (paths : List String)
    (options : ContextKeyOptions) : String :=
  makeKey digest (cacheKeyParts paths options)

/-! ### Unified cache (`ExaiCache` in `src/ai/cache.ts`)

The cache directory is modelled as the list of its record files in
directory order (creation order: `writeFileSync` of an existing name
replaces in place, a fresh name appends).  Each record keeps the stored
`{value, timestamp}`; the file's mtime coincides with `timestamp`
because both are set by the same write.  `Date.now()` is an explicit
argument. -/

/-- Cache configuration (`ttlMs` and `max` of the class). -/
structure CacheCfg where
  ttlMs : Nat
  maxEntries : Nat

/-- The constructor defaults: 7-day TTL, 100 entries. -/
def defaultCacheCfg : CacheCfg :=
  { ttlMs := 7 * 24 * 60 * 60 * 1000, maxEntries := 100 }

/-- One record file of the cache directory. -/
structure CacheEntry (α : Type) where
  name : String
  value : α
  timestamp : Nat

/-- The state of the cache directory. -/
abbrev CacheDir (α : Type) := List (CacheEntry α)

/-- `{ns}__{key}.json`. -/
def cacheFileName (ns key : String) : String :=
  ns ++ "__" ++ key ++ ".json"

/-- `writeFileSync` on the directory model: replace the record with
the same file name in place, or append a new file. -/
def writeRecord (name : String) (v : α) (now : Nat) : CacheDir α → CacheDir α
  | [] => [⟨name, v, now⟩]
  | e :: rest =>
    if e.name = name then ⟨name, v, now⟩ :: rest
    else e :: writeRecord name v now rest

/-- Stable insertion for the newest-first sort of `_prune`
(`sort((a, b) => b.mtime - a.mtime)`; ties keep directory order, as
the JS sort is stable). -/
def insByTimeDesc (x : CacheEntry α) : CacheDir α → CacheDir α
  | [] => [x]
  | y :: rest =>
    if x.timestamp ≤ y.timestamp then y :: insByTimeDesc x rest
    else x :: y :: rest

/-- The newest-first sort of `_prune`. -/
def sortByTimeDesc (l : CacheDir α) : CacheDir α :=
  l.foldr insByTimeDesc []

/-- `_prune()`: when the record count exceeds `maxEntries`, delete
every file beyond the `maxEntries` newest (deletion preserves the
directory order of the survivors). -/
def prune (cfg : CacheCfg) (s : CacheDir α) : CacheDir α :=
  if s.length ≤ cfg.maxEntries then s
  else
    let kept := (sortByTimeDesc s).take cfg.maxEntries
    s.filter (fun e => kept.any (fun k => k.name = e.name))

/-- `set(ns, key, value)` at time `now`: write the record file, then
prune. -/
def cacheSet (cfg : CacheCfg) (now : Nat) (ns key : String) (v : α)
    (s : CacheDir α) : CacheDir α :=
  prune cfg (writeRecord (cacheFileName ns key) v now s)

/-- Deletion of one file by name (`unlinkSync`). -/
def eraseRecord (name : String) (s : CacheDir α) : CacheDir α :=
  s.filter (fun e => !(e.name = name))

/-- `get(ns, key)` at time `now`: `null` on a missing file; an expired
record (age strictly above the TTL) is deleted and reported as a miss;
otherwise the stored value is returned.  (The age comparison uses
truncated subtraction, which agrees with the source's signed arithmetic
for every `ttlMs ≥ 0`.) -/
def cacheGet (cfg : CacheCfg) (now : Nat) (ns key : String) (s : CacheDir α) :
    Option α × CacheDir α :=
  let name := cacheFileName ns key
  match s.find? (fun e => e.name = name) with
  | none => (none, s)
  | some e =>
    if cfg.ttlMs < now - e.timestamp then (none, eraseRecord name s)
    else (some e.value, s)

/-- Whether a file name is in scope for `clear`/`stats` with the given
optional namespace. -/
def statsMatch (ns : Option String) (name : String) : Bool :=
  match ns with
  | some n => strStartsWith name (n ++ "__") && strEndsWith name ".json"
  | none => strEndsWith name ".json" || strEndsWith name ".cache"

/-- The `totalEntries` field of `stats(ns?)` (the byte-size and
mtime-range fields depend only on the same filtered file list and are
not separately modelled). -/
def statsTotalEntries (ns : Option String) (s : CacheDir α) : Nat :=
  (s.filter (fun e => statsMatch ns e.name)).length

/-- One write request: namespace, key, value, write time. -/
structure CacheWrite (α : Type) where
  ns : String
  key : String
  value : α
  time : Nat

/-- The record file a write creates. -/
def CacheWrite.entry (w : CacheWrite α) : CacheEntry α :=
  ⟨cacheFileName w.ns w.key, w.value, w.time⟩

/-- A sequence of `set` calls applied in order. -/
def applyWrites (cfg : CacheCfg) (ws : List (CacheWrite α)) (s : CacheDir α) : CacheDir α :=
  ws.foldl (fun acc w => cacheSet cfg w.time w.ns w.key w.value acc) s

/-! ### Spec-side definitions

Predicates written from the specification's words, to be compared with
the definitions transcribed from the source. -/

/-- One pattern evaluated exactly as §4.3 of the spec describes it: no
trimming, the final-segment comparison exact.  "If it contains no glob
marker, match succeeds if any path segment (case-insensitive) equals
the pattern, or if the final segment (filename) equals it exactly.  If
the pattern starts with `*.`, match succeeds if the filename ends with
the pattern's suffix (case-insensitive)." -/
def specMatchPatternLiteral (parts : List String) (p : String) : Bool :=
  if !strContainsChar p '*' && !strContainsChar p '?' then
    (parts.any (fun seg => strLower seg == strLower p)) || (parts.getLastD "" == p)
  else if strStartsWith p "*." then
    strEndsWith (strLower (parts.getLastD "")) (strLower (String.mk (p.data.drop 1)))
  else false

/-- The spec's matcher, literally: first matching pattern
short-circuits with true, no match across all patterns yields false. -/
def specMatchesLiteral (relativePath : String) (patterns : List String) : Bool :=
  patterns.any (specMatchPatternLiteral (splitPath relativePath))

/-- The spec's per-pattern semantics amended minimally: each pattern is
first trimmed of surrounding whitespace and an empty result is
skipped; the rest is the spec's wording (with the exact final-segment
comparison retained — it is subsumed by the case-insensitive segment
comparison). -/
def specMatchPatternTrimmed (parts : List String) (pattern : String) : Bool :=
  let p := strTrim pattern
  if p == "" then false
  else if !strContainsChar p '*' && !strContainsChar p '?' then
    (parts.getLastD "" == p) || (parts.any (fun seg => strLower seg == strLower p))
  else if strStartsWith p "*." then
    strEndsWith (strLower (parts.getLastD "")) (strLower (String.mk (p.data.drop 1)))
  else false

/-- The amended spec matcher. -/
def specMatchesTrimmed (relativePath : String) (patterns : List String) : Bool :=
  patterns.any (specMatchPatternTrimmed (splitPath relativePath))

/-- A pattern that is inert for `matchesAiExclusion`: empty or
whitespace-only, or with a glob marker but a trimmed form that does
not begin with `*.`. -/
def isNoopPattern (pattern : String) : Bool :=
  let p := strTrim pattern
  p == "" || ((strContainsChar p '*' || strContainsChar p '?') && !strStartsWith p "*.")

/-! ### Concrete fixtures used by witnesses and counterexamples -/

/-- The fixture used by the concrete witnesses: a root with a surviving
source file, a junk directory and a build directory. -/
def witnessRoot : RootDir :=
  ⟨"/w", FSNode.dir "w" [
    FSNode.dir "src" [FSNode.file "index.ts" "export const one = 1;" 21 true true] true,
    FSNode.dir "dist" [FSNode.file "app.js" "built" 5 true true] true,
    FSNode.file "notes.md" "hello notes" 11 true true] true⟩

/-- A 201-line non-code content used by the C6 counterexample. -/
def c6Content : String := joinSep "\n" (List.replicate 201 "x")

/-- The C6 counterexample file. -/
def c6File : FileEntry := ⟨"n.md", "/n.md", c6Content, byteLen c6Content, "markdown"⟩

/-- The scenario directory of claim C2: `src/index.ts` (survives),
`node_modules/pkg/index.js` (junk), `dist/app.js` (manually excluded),
`app.test.ts` (test artifact). -/
def c2Root : RootDir :=
  ⟨"/proj", FSNode.dir "proj" [
    FSNode.file "app.test.ts" "test-artifact-content" 21 true true,
    FSNode.dir "dist" [FSNode.file "app.js" "compiled-output-content" 23 true true] true,
    FSNode.dir "node_modules"
      [FSNode.dir "pkg" [FSNode.file "index.js" "pkg-noise-content" 17 true true] true] true,
    FSNode.dir "src" [FSNode.file "index.ts" "export const main = 1;" 22 true true] true] true⟩

/-- The C2 gather call: manual pattern `["dist"]`, test artifacts not
allowed (default), no AI filter, no compression. -/
def c2Result : GatherResult :=
  gatherContext [c2Root] { excludePatterns := some ["dist"] }

/-! ### Lemmas about the pattern matcher -/

theorem splitAux_ne_nil (p : Char → Bool) : ∀ (cs cur : List Char), splitAux p cs cur ≠ []
  | [], _ => by simp [splitAux]
  | c :: rest, cur => by
    unfold splitAux
    by_cases h : p c
    · simp [h]
    · simpa [h] using splitAux_ne_nil p rest (c :: cur)

theorem splitPath_ne_nil (s : String) : splitPath s ≠ [] :=
  splitAux_ne_nil _ _ _

theorem getLastD_mem {α : Type} (d : α) : ∀ (l : List α), l ≠ [] → l.getLastD d ∈ l
  | [], h => absurd rfl h
  | [a], _ => by simp
  | a :: b :: rest, _ => by
    have ih := getLastD_mem d (b :: rest) (by simp)
    simpa [List.getLastD_cons] using Or.inr ih

theorem matchPattern_eq_specTrimmed (parts : List String) (hne : parts ≠ [])
    (pattern : String) : matchPattern parts pattern = specMatchPatternTrimmed parts pattern := by
  unfold matchPattern specMatchPatternTrimmed
  by_cases h0 : strTrim pattern == ""
  · simp [h0]
  · simp only [h0, if_false]
    by_cases hg : !strContainsChar (strTrim pattern) '*' && !strContainsChar (strTrim pattern) '?'
    · simp only [hg, if_true]
      have hmem : parts.getLastD "" ∈ parts := getLastD_mem "" parts hne
      cases hA : parts.any (fun seg => strLower seg == strLower (strTrim pattern)) with
      | true => simp [hA]
      | false =>
        -- without a case-insensitive segment match, neither filename check can succeed
        have hB : (strLower (parts.getLastD "") == strLower (strTrim pattern)) = false := by
          cases hB : strLower (parts.getLastD "") == strLower (strTrim pattern) with
          | false => rfl
          | true =>
            exfalso
            have hany : parts.any (fun seg => strLower seg == strLower (strTrim pattern)) = true :=
              List.any_eq_true.mpr ⟨parts.getLastD "", hmem, hB⟩
            rw [hA] at hany
            exact Bool.false_ne_true hany
        have hC : (parts.getLastD "" == strTrim pattern) = false := by
          cases hC : parts.getLastD "" == strTrim pattern with
          | false => rfl
          | true =>
            exfalso
            have hEq : parts.getLastD "" = strTrim pattern := eq_of_beq hC
            have hlow : (strLower (parts.getLastD "") == strLower (strTrim pattern)) = true := by
              rw [hEq]; exact beq_self_eq_true _
            rw [hB] at hlow
            exact Bool.false_ne_true hlow
        rw [hB, hC]
        simp
    · simp [hg]

/-- The code's matcher coincides with the amended spec matcher. -/
theorem matchesAiExclusion_eq_specTrimmed (relativePath : String) (patterns : List String) :
    matchesAiExclusion relativePath patterns = specMatchesTrimmed relativePath patterns := by
  unfold matchesAiExclusion specMatchesTrimmed
  have hne := splitPath_ne_nil relativePath
  induction patterns with
  | nil => rfl
  | cons p rest ih =>
    simp only [List.any_cons, ih, matchPattern_eq_specTrimmed (splitPath relativePath) hne p]

theorem noop_matchPattern (pattern : String) (h : isNoopPattern pattern = true)
    (parts : List String) : matchPattern parts pattern = false := by
  unfold isNoopPattern at h
  unfold matchPattern
  by_cases h0 : strTrim pattern == ""
  · simp [h0]
  · simp only [h0, Bool.false_or] at h
    have hglob : (strContainsChar (strTrim pattern) '*' || strContainsChar (strTrim pattern) '?') = true :=
      (Bool.and_eq_true _ _ |>.mp h).1
    have hstar : strStartsWith (strTrim pattern) "*." = false := by
      have := (Bool.and_eq_true _ _ |>.mp h).2
      revert this; cases strStartsWith (strTrim pattern) "*." <;> simp
    have hnb : (!strContainsChar (strTrim pattern) '*' && !strContainsChar (strTrim pattern) '?') = false := by
      rcases Bool.or_eq_true _ _ |>.mp hglob with hc | hc <;> simp [hc]
    simp [h0, hnb, hstar]

theorem noop_filter_matches (path : String) (P : List String) :
    matchesAiExclusion path (P.filter (fun q => !isNoopPattern q)) = matchesAiExclusion path P := by
  unfold matchesAiExclusion
  induction P with
  | nil => rfl
  | cons p rest ih =>
    by_cases hp : isNoopPattern p
    · simp [hp, noop_matchPattern p hp, ih]
    · simp only [Bool.not_eq_true] at hp
      simp [List.filter_cons, hp, ih]

/-- Pattern-list monotonicity of the matcher itself. -/
theorem matchesAiExclusion_mono (P Q : List String) (hPQ : ∀ p, p ∈ P → p ∈ Q)
    (path : String) (h : matchesAiExclusion path P = true) :
    matchesAiExclusion path Q = true := by
  unfold matchesAiExclusion at h ⊢
  obtain ⟨p, hp, hmatch⟩ := List.any_eq_true.mp h
  exact List.any_eq_true.mpr ⟨p, hPQ p hp, hmatch⟩

/-! ### Lemmas about the file walk -/

theorem walkLevel_nil (cfg : WalkCfg) (r : List FSNode → String → String → Nat → WalkOut)
    (rel abs : String) (depth : Nat) : walkLevel cfg r [] rel abs depth = ([], []) := rfl

theorem walkLevel_cons_file_files (cfg : WalkCfg)
    (r : List FSNode → String → String → Nat → WalkOut) (n c : String) (s : Nat)
    (st rd : Bool) (rest : List FSNode) (rel abs : String) (depth : Nat) :
    (walkLevel cfg r (FSNode.file n c s st rd :: rest) rel abs depth).1 =
      (if st = true ∧ shouldPreExcludeFile n s cfg.maxFileSize cfg.allowTestFiles = false ∧
          matchesAiExclusion (pathJoin rel n) cfg.aiExcludePatterns = false ∧ rd = true then
        [⟨pathJoin rel n, pathJoin abs n, c, s, extToLanguage (extname n)⟩]
      else []) ++ (walkLevel cfg r rest rel abs depth).1 := by
  cases st <;> cases rd <;>
    rcases hp : shouldPreExcludeFile n s cfg.maxFileSize cfg.allowTestFiles <;>
    rcases hm : matchesAiExclusion (pathJoin rel n) cfg.aiExcludePatterns <;>
    simp [walkLevel, hp, hm]

theorem walkLevel_cons_dir_files (cfg : WalkCfg)
    (r : List FSNode → String → String → Nat → WalkOut) (n : String)
    (ch : List FSNode) (lk : Bool) (rest : List FSNode) (rel abs : String) (depth : Nat) :
    (walkLevel cfg r (FSNode.dir n ch lk :: rest) rel abs depth).1 =
      (if shouldPreExcludeDir n cfg.extraExcludeDirs cfg.allowTestFiles = false ∧
          matchesAiExclusion (pathJoin rel n) cfg.aiExcludePatterns = false ∧
          ¬ cfg.maxDepth < depth + 1 ∧ lk = true then
        (r (sortByName ch) (pathJoin rel n) (pathJoin abs n) (depth + 1)).1
      else []) ++ (walkLevel cfg r rest rel abs depth).1 := by
  cases lk <;>
    rcases hp : shouldPreExcludeDir n cfg.extraExcludeDirs cfg.allowTestFiles <;>
    rcases hm : matchesAiExclusion (pathJoin rel n) cfg.aiExcludePatterns <;>
    by_cases hg : cfg.maxDepth < depth + 1 <;>
    simp [walkLevel, hp, hm, hg]

theorem walkLevel_files_mono (x : Option (List String)) (m : Nat) (t : Bool) (d : Nat)
    (P Q : List String)
    (hmono : ∀ path, matchesAiExclusion path P = true → matchesAiExclusion path Q = true)
    (rP rQ : List FSNode → String → String → Nat → WalkOut)
    (hrec : ∀ ents rel abs depth f, f ∈ (rQ ents rel abs depth).1 → f ∈ (rP ents rel abs depth).1) :
    ∀ (ents : List FSNode) (rel abs : String) (depth : Nat) (f : FileEntry),
      f ∈ (walkLevel ⟨Q, x, m, t, d⟩ rQ ents rel abs depth).1 →
      f ∈ (walkLevel ⟨P, x, m, t, d⟩ rP ents rel abs depth).1 := by
  intro ents
  have hcontra : ∀ path, matchesAiExclusion path Q = false → matchesAiExclusion path P = false := by
    intro path hQ
    cases hP : matchesAiExclusion path P with
    | false => rfl
    | true => rw [hmono path hP] at hQ; exact absurd hQ (by simp)
  induction ents with
  | nil => intro rel abs depth f h; simp [walkLevel_nil] at h
  | cons e rest ih =>
    intro rel abs depth f h
    cases e with
    | file n c s st rd =>
      rw [walkLevel_cons_file_files] at h
      rw [walkLevel_cons_file_files]
      simp only [List.mem_append] at h ⊢
      rcases h with hf | hf
      · have hcond : st = true ∧ shouldPreExcludeFile n s m t = false ∧
            matchesAiExclusion (pathJoin rel n) Q = false ∧ rd = true := by
          by_contra hn
          rw [if_neg hn] at hf
          exact absurd hf (List.not_mem_nil f)
        rw [if_pos hcond] at hf
        rw [if_pos ⟨hcond.1, hcond.2.1, hcontra _ hcond.2.2.1, hcond.2.2.2⟩]
        exact Or.inl hf
      · exact Or.inr (ih rel abs depth f hf)
    | dir n ch lk =>
      rw [walkLevel_cons_dir_files] at h
      rw [walkLevel_cons_dir_files]
      simp only [List.mem_append] at h ⊢
      rcases h with hf | hf
      · have hcond : shouldPreExcludeDir n x t = false ∧
            matchesAiExclusion (pathJoin rel n) Q = false ∧ ¬ d < depth + 1 ∧ lk = true := by
          by_contra hn
          rw [if_neg hn] at hf
          exact absurd hf (List.not_mem_nil f)
        rw [if_pos hcond] at hf
        rw [if_pos ⟨hcond.1, hcontra _ hcond.2.1, hcond.2.2⟩]
        exact Or.inl (hrec _ _ _ _ f hf)
      · exact Or.inr (ih rel abs depth f hf)

theorem walkFuel_files_mono (x : Option (List String)) (m : Nat) (t : Bool) (d : Nat)
    (P Q : List String)
    (hmono : ∀ path, matchesAiExclusion path P = true → matchesAiExclusion path Q = true) :
    ∀ (fuel : Nat) (ents : List FSNode) (rel abs : String) (depth : Nat) (f : FileEntry),
      f ∈ (walkFuel ⟨Q, x, m, t, d⟩ fuel ents rel abs depth).1 →
      f ∈ (walkFuel ⟨P, x, m, t, d⟩ fuel ents rel abs depth).1 := by
  intro fuel
  induction fuel with
  | zero => intro ents rel abs depth f h; simp [walkFuel] at h
  | succ fl ih =>
    intro ents rel abs depth f h
    exact walkLevel_files_mono x m t d P Q hmono _ _ (fun e r a dep g => ih e r a dep g)
      ents rel abs depth f h

theorem walkRoot_file (cfg : WalkCfg) (p n c : String) (s : Nat) (st rd : Bool) :
    walkRoot cfg ⟨p, FSNode.file n c s st rd⟩ = ([], []) := rfl

theorem walkRoot_dir (cfg : WalkCfg) (p n : String) (ch : List FSNode) (lk : Bool) :
    walkRoot cfg ⟨p, FSNode.dir n ch lk⟩ =
      if lk = true then walkFuel cfg (cfg.maxDepth + 1) (sortByName ch) "" p 0
      else ([], []) := by
  cases lk <;> simp [walkRoot]

theorem walkRoot_files_mono (x : Option (List String)) (m : Nat) (t : Bool) (d : Nat)
    (P Q : List String)
    (hmono : ∀ path, matchesAiExclusion path P = true → matchesAiExclusion path Q = true)
    (r : RootDir) (f : FileEntry)
    (h : f ∈ (walkRoot ⟨Q, x, m, t, d⟩ r).1) : f ∈ (walkRoot ⟨P, x, m, t, d⟩ r).1 := by
  obtain ⟨p, node⟩ := r
  cases node with
  | file n c s st rd => rw [walkRoot_file] at h; exact absurd h (List.not_mem_nil f)
  | dir n ch lk =>
    rw [walkRoot_dir] at h
    rw [walkRoot_dir]
    cases lk with
    | false => rw [if_neg (by simp)] at h; exact absurd h (List.not_mem_nil f)
    | true =>
      rw [if_pos rfl] at h ⊢
      exact walkFuel_files_mono x m t d P Q hmono _ _ _ _ _ f h

theorem readFiles_files_mono (roots : List RootDir) (opts : ReadOptions) (P Q : List String)
    (hmono : ∀ path, matchesAiExclusion path P = true → matchesAiExclusion path Q = true)
    (f : FileEntry)
    (h : f ∈ (readFiles roots { opts with aiExcludePatterns := some Q }).files) :
    f ∈ (readFiles roots { opts with aiExcludePatterns := some P }).files := by
  unfold readFiles readCfg at h ⊢
  simp only [Option.getD_some] at h ⊢
  induction roots with
  | nil => simp at h
  | cons r rest ih =>
    simp only [List.foldr_cons, List.mem_append] at h ⊢
    rcases h with hf | hf
    · exact Or.inl (walkRoot_files_mono _ _ _ _ P Q hmono r f hf)
    · exact Or.inr (ih hf)

theorem walkLevel_congr (x : Option (List String)) (m : Nat) (t : Bool) (d : Nat)
    (A B : List String)
    (hmatch : ∀ path, matchesAiExclusion path A = matchesAiExclusion path B)
    (rA rB : List FSNode → String → String → Nat → WalkOut)
    (hrec : ∀ ents rel abs depth, rA ents rel abs depth = rB ents rel abs depth) :
    ∀ (ents : List FSNode) (rel abs : String) (depth : Nat),
      walkLevel ⟨A, x, m, t, d⟩ rA ents rel abs depth =
      walkLevel ⟨B, x, m, t, d⟩ rB ents rel abs depth := by
  intro ents
  induction ents with
  | nil => intro rel abs depth; rfl
  | cons e rest ih =>
    intro rel abs depth
    cases e with
    | file n c s st rd => simp only [walkLevel, hmatch, hrec, ih]
    | dir n ch lk => simp only [walkLevel, hmatch, hrec, ih]

theorem walkFuel_congr (x : Option (List String)) (m : Nat) (t : Bool) (d : Nat)
    (A B : List String)
    (hmatch : ∀ path, matchesAiExclusion path A = matchesAiExclusion path B) :
    ∀ (fuel : Nat) (ents : List FSNode) (rel abs : String) (depth : Nat),
      walkFuel ⟨A, x, m, t, d⟩ fuel ents rel abs depth =
      walkFuel ⟨B, x, m, t, d⟩ fuel ents rel abs depth := by
  intro fuel
  induction fuel with
  | zero => intro ents rel abs depth; rfl
  | succ fl ih =>
    intro ents rel abs depth
    exact walkLevel_congr x m t d A B hmatch _ _ (fun e r a dep => ih e r a dep)
      ents rel abs depth

theorem walkRoot_congr (x : Option (List String)) (m : Nat) (t : Bool) (d : Nat)
    (A B : List String)
    (hmatch : ∀ path, matchesAiExclusion path A = matchesAiExclusion path B)
    (r : RootDir) : walkRoot ⟨A, x, m, t, d⟩ r = walkRoot ⟨B, x, m, t, d⟩ r := by
  obtain ⟨p, node⟩ := r
  cases node with
  | file n c s st rd => rfl
  | dir n ch lk =>
    rw [walkRoot_dir, walkRoot_dir]
    cases lk with
    | false => rfl
    | true =>
      rw [if_pos rfl, if_pos rfl]
      exact walkFuel_congr _ _ _ _ A B hmatch _ _ _ _ _

theorem foldr_walkRoot_congr (cfgA cfgB : WalkCfg)
    (h : ∀ r, walkRoot cfgA r = walkRoot cfgB r) :
    ∀ roots : List RootDir,
      List.foldr (fun r acc => ((walkRoot cfgA r).1 ++ acc.1, (walkRoot cfgA r).2 ++ acc.2))
        (([], []) : WalkOut) roots =
      List.foldr (fun r acc => ((walkRoot cfgB r).1 ++ acc.1, (walkRoot cfgB r).2 ++ acc.2))
        (([], []) : WalkOut) roots := by
  intro roots
  induction roots with
  | nil => rfl
  | cons r rest ih => simp only [List.foldr_cons, h r, ih]

theorem readFiles_congr (roots : List RootDir) (opts : ReadOptions) (A B : List String)
    (hmatch : ∀ path, matchesAiExclusion path A = matchesAiExclusion path B) :
    readFiles roots { opts with aiExcludePatterns := some A } =
    readFiles roots { opts with aiExcludePatterns := some B } := by
  unfold readFiles readCfg
  simp only [Option.getD_some]
  rw [foldr_walkRoot_congr _ _ (walkRoot_congr _ _ _ _ A B hmatch) roots]

/-! ### Claim C1 -/

/-- C1: Exclusion is monotonic in the pattern list.  For every root
list and every two exclusion-pattern lists `P ⊆ Q`, every relative path
matched under `P` is matched under `Q`, and every file returned by the
file-read stage under `Q` is also returned under `P` — adding patterns
never increases the set of files in the read result. -/
theorem c1_exclusion_monotonic (roots : List RootDir) (opts : ReadOptions)
    (P Q : List String) (hPQ : ∀ p, p ∈ P → p ∈ Q) :
    (∀ path, matchesAiExclusion path P = true → matchesAiExclusion path Q = true) ∧
    (∀ f, f ∈ (readFiles roots { opts with aiExcludePatterns := some Q }).files →
      f ∈ (readFiles roots { opts with aiExcludePatterns := some P }).files) := by
  refine ⟨matchesAiExclusion_mono P Q hPQ, ?_⟩
  intro f hf
  exact readFiles_files_mono roots opts P Q (matchesAiExclusion_mono P Q hPQ) f hf

/-- C1 witness: at a concrete fixture with `P = ["dist"]` and
`Q = ["dist", "*.md"]`, the theorem transports a file of the `Q` read
result into the `P` read result. -/
theorem c1_exclusion_monotonic_witness :
    (∀ p, p ∈ ["dist"] → p ∈ ["dist", "*.md"]) ∧
    (⟨"src/index.ts", "/w/src/index.ts", "export const one = 1;", 21, "typescript"⟩ : FileEntry) ∈
      (readFiles [witnessRoot] { aiExcludePatterns := some ["dist"] } : ReadResult).files :=
  ⟨by decide,
   (c1_exclusion_monotonic [witnessRoot] {} ["dist"] ["dist", "*.md"] (by decide)).2
     ⟨"src/index.ts", "/w/src/index.ts", "export const one = 1;", 21, "typescript"⟩
     (by decide)⟩

/-! ### Claim C8 -/

/-- C8 counterexample: the matcher trims each pattern before use, so
the pattern `" dist"` (no glob marker) matches `"dist/x"` although no
path segment equals it, contradicting the claimed if-and-only-if
semantics (formalised literally in `specMatchesLiteral`). -/
theorem c8_pattern_semantics_counterexample :
    matchesAiExclusion "dist/x" [" dist"] = true ∧
    specMatchesLiteral "dist/x" [" dist"] = false := by decide

/-- C8 (amended): after trimming each pattern and skipping empty
results, the matcher has exactly the spec's per-pattern semantics: a
trimmed pattern with no glob marker matches iff the final segment
equals it exactly or some segment equals it case-insensitively (the
code's case-insensitive filename check is subsumed by the segment
check), a trimmed pattern starting with `*.` matches iff the filename
ends with its suffix case-insensitively, evaluated in order with the
first match short-circuiting. -/
theorem c8_pattern_semantics_amended (relativePath : String) (patterns : List String) :
    matchesAiExclusion relativePath patterns = specMatchesTrimmed relativePath patterns :=
  matchesAiExclusion_eq_specTrimmed relativePath patterns

/-! ### Claim C9 -/

/-- C9 counterexample: `" *.ts"` contains a glob marker and does not
begin with `*.`, yet it matches `"a.ts"` because the matcher trims the
pattern first — so such patterns are not all no-ops as claimed. -/
theorem c9_noop_patterns_counterexample :
    strContainsChar " *.ts" '*' = true ∧
    strStartsWith " *.ts" "*." = false ∧
    matchesAiExclusion "a.ts" [" *.ts"] = true := by decide

/-- C9 (amended): a pattern that is empty or whitespace-only, or whose
TRIMMED form contains a glob marker but does not begin with `*.`,
never matches any path; removing all such patterns from a pattern list
changes neither the matcher's verdict on any path nor the result of
the file-read stage — they are complete no-ops. -/
theorem c9_noop_patterns_amended (pattern : String) (hq : isNoopPattern pattern = true)
    (path : String) (P : List String) (roots : List RootDir) (opts : ReadOptions) :
    matchesAiExclusion path [pattern] = false ∧
    matchesAiExclusion path (P.filter (fun q => !isNoopPattern q)) = matchesAiExclusion path P ∧
    readFiles roots { opts with aiExcludePatterns := some (P.filter (fun q => !isNoopPattern q)) } =
      readFiles roots { opts with aiExcludePatterns := some P } := by
  refine ⟨?_, noop_filter_matches path P, ?_⟩
  · simp [matchesAiExclusion, noop_matchPattern pattern hq]
  · exact readFiles_congr roots opts _ P (fun pth => noop_filter_matches pth P)

/-- C9 witness: the no-op patterns of the claim (`"foo*"`, a
whitespace-only pattern, `"a?c"`) match nothing concrete, and
filtering them out of a pattern list leaves the read result of the
witness fixture unchanged. -/
theorem c9_noop_patterns_amended_witness :
    isNoopPattern "foo*" = true ∧
    matchesAiExclusion "src/foo.ts" ["foo*"] = false ∧
    readFiles [witnessRoot]
        { aiExcludePatterns := some ((["foo*", " ", "a?c", "dist"]).filter (fun q => !isNoopPattern q)) } =
      readFiles [witnessRoot] { aiExcludePatterns := some ["foo*", " ", "a?c", "dist"] } :=
  ⟨by decide,
   (c9_noop_patterns_amended "foo*" (by decide) "src/foo.ts" ["foo*"] [] {}).1,
   (c9_noop_patterns_amended "foo*" (by decide) "src/foo.ts" ["foo*", " ", "a?c", "dist"]
     [witnessRoot] {}).2.2⟩

/-! ### Claim C10 -/

theorem forall₂_map_of_pointwise {α β : Type} (R : α → β → Prop) (g : α → β)
    (h : ∀ a, R a (g a)) : ∀ l : List α, List.Forall₂ R l (l.map g)
  | [] => List.Forall₂.nil
  | a :: rest => List.Forall₂.cons (h a) (forall₂_map_of_pointwise R g h rest)

theorem compressOneFile_fields (opts : CompressOptionsResolved) (f : FileEntry) :
    (compressOneFile opts f).relativePath = f.relativePath ∧
    (compressOneFile opts f).absolutePath = f.absolutePath ∧
    (compressOneFile opts f).language = f.language := by
  unfold compressOneFile
  by_cases h : f.language ∈ CODE_EXTENSIONS <;> simp [h]

/-- C10: the reducer is a per-file map that leaves its input alone: the
output list has the same length as the input, and every output entry
carries the input entry's `relativePath`, `absolutePath` and `language`
unchanged (only `content` and `size` are recomputed).  The input list
and entries are Lean values, hence immutable by construction. -/
theorem c10_reducer_no_mutation (files : List FileEntry) (options : CompressOptions) :
    (compressFiles files options).files.length = files.length ∧
    List.Forall₂ (fun (a b : FileEntry) =>
        b.relativePath = a.relativePath ∧ b.absolutePath = a.absolutePath ∧
        b.language = a.language)
      files (compressFiles files options).files := by
  constructor
  · simp [compressFiles]
  · exact forall₂_map_of_pointwise
      (fun (a b : FileEntry) =>
        b.relativePath = a.relativePath ∧ b.absolutePath = a.absolutePath ∧
        b.language = a.language)
      (compressOneFile (resolveCompressOptions options))
      (fun f => compressOneFile_fields (resolveCompressOptions options) f) files

/-! ### Claim C6 -/

set_option maxRecDepth 4000 in
/-- C6 counterexample: with no `maxFileLines` option the reducer leaves
a 201-line non-code file UNCHANGED — the effective default is the
`DEFAULTS` value 10000, not 200 as claimed (the literal `?? 200` can
only fire for an explicitly-`undefined` option). -/
theorem c6_noncode_default_counterexample :
    200 < (splitNl c6Content).length ∧
    (compressFiles [c6File] {}).files = [c6File] := by decide

/-- C6 (amended): for every file whose category is not a code category
the reducer truncates the content to `maxFileLines` lines with a
default of 10000 when the caller supplies no `maxFileLines` option,
appending a count of the omitted lines; content of at most that many
lines is returned unchanged. -/
theorem c6_noncode_truncation_amended (files : List FileEntry) (options : CompressOptions)
    (i : Nat) (f : FileEntry) (hi : files[i]? = some f)
    (hcode : CODE_EXTENSIONS.contains f.language = false) :
    (compressFiles files options).files[i]? =
      some { f with content := limitLines f.content (options.maxFileLines.getD 10000),
                    size := byteLen (limitLines f.content (options.maxFileLines.getD 10000)) } ∧
    ((splitNl f.content).length ≤ options.maxFileLines.getD 10000 →
      limitLines f.content (options.maxFileLines.getD 10000) = f.content) ∧
    (options.maxFileLines.getD 10000 < (splitNl f.content).length →
      limitLines f.content (options.maxFileLines.getD 10000) =
        joinSep "\n" ((splitNl f.content).take (options.maxFileLines.getD 10000)) ++
          "\n... (" ++
          natToString ((splitNl f.content).length - options.maxFileLines.getD 10000) ++
          " more lines)") := by
  have hmem : f.language ∉ CODE_EXTENSIONS := by simpa using hcode
  refine ⟨?_, ?_, ?_⟩
  · show (files.map (compressOneFile (resolveCompressOptions options)))[i]? = _
    rw [List.getElem?_map, hi]
    have hone : compressOneFile (resolveCompressOptions options) f =
        { f with content := limitLines f.content (options.maxFileLines.getD 10000),
                 size := byteLen (limitLines f.content (options.maxFileLines.getD 10000)) } := by
      unfold compressOneFile
      rw [if_pos (by simp [hmem])]
      rfl
    rw [Option.map_some', hone]
  · intro hle
    unfold limitLines
    rw [if_pos hle]
  · intro hlt
    unfold limitLines
    rw [if_neg (by omega)]

/-- C6 witness: a two-line markdown file with `maxFileLines = 1` is
truncated to one line plus the omitted-line marker; the same file with
the option absent is returned unchanged. -/
theorem c6_noncode_truncation_amended_witness :
    (compressFiles [⟨"a.md", "/a.md", "a\nb", 3, "markdown"⟩]
        { maxFileLines := some 1 } : CompressResult).files[0]? =
      some ⟨"a.md", "/a.md", "a\n... (1 more lines)", 20, "markdown"⟩ ∧
    limitLines "a\nb" 1 = "a\n... (1 more lines)" :=
  ⟨by
    have h := (c6_noncode_truncation_amended
      [⟨"a.md", "/a.md", "a\nb", 3, "markdown"⟩] { maxFileLines := some 1 }
      0 ⟨"a.md", "/a.md", "a\nb", 3, "markdown"⟩ (by decide) (by decide)).1
    rw [h]; decide,
   by decide⟩

/-! ### Claim C7 -/

theorem compressionRatio_def (files : List FileEntry) (options : CompressOptions) :
    (compressFiles files options).compressionRatio =
      if 0 < (compressFiles files options).originalSize then
        (1 - ((compressFiles files options).compressedSize : ℚ) /
          ((compressFiles files options).originalSize : ℚ)) * 100
      else 0 := rfl

/-- C7 counterexample: the compression ratio can be negative — a
two-byte non-code file truncated to one line gains the 18-byte
omitted-line marker, giving a ratio of −900, outside the claimed
interval `[0, 100]`. -/
theorem c7_ratio_counterexample :
    (compressFiles [⟨"a.md", "/a.md", "a\n", 2, "markdown"⟩]
        { maxFileLines := some 1 } : CompressResult).compressionRatio = -900 ∧
    (-900 : ℚ) < 0 := by
  constructor
  · rw [show (compressFiles [⟨"a.md", "/a.md", "a\n", 2, "markdown"⟩]
        { maxFileLines := some 1 } : CompressResult).compressionRatio =
        (1 - (20 : ℚ) / (2 : ℚ)) * 100 from rfl]
    norm_num
  · norm_num

/-- C7 (amended): the compression ratio equals `0` when the total
original size is `0`, and never exceeds `100`; it can be negative,
because the truncation markers the transforms append can enlarge the
content. -/
theorem c7_ratio_amended (files : List FileEntry) (options : CompressOptions) :
    ((compressFiles files options).originalSize = 0 →
      (compressFiles files options).compressionRatio = 0) ∧
    (compressFiles files options).compressionRatio ≤ 100 := by
  constructor
  · intro h0
    rw [compressionRatio_def, h0]
    norm_num
  · rw [compressionRatio_def]
    by_cases h : 0 < (compressFiles files options).originalSize
    · rw [if_pos h]
      have hq : (0 : ℚ) ≤ ((compressFiles files options).compressedSize : ℚ) /
          ((compressFiles files options).originalSize : ℚ) :=
        div_nonneg (by positivity) (by positivity)
      nlinarith
    · rw [if_neg h]
      norm_num

/-- C7 witness: on an empty file list the original size is `0` and the
ratio is `0` (and of course at most `100`). -/
theorem c7_ratio_amended_witness :
    (compressFiles [] {} : CompressResult).compressionRatio = 0 ∧
    (compressFiles [] {} : CompressResult).compressionRatio ≤ 100 :=
  ⟨(c7_ratio_amended [] {}).1 rfl, (c7_ratio_amended [] {}).2⟩

/-! ### Claim C2 -/

/-- C2 counterexample: the scenario gather yields TWO skip records, not
three — a pre-filtered directory (`node_modules`) is skipped silently,
so nothing is ever recorded for `node_modules/pkg/index.js`, and the
`ai-excluded` record names the directory `dist`, not the file
`dist/app.js`. -/
theorem c2_scenario_counterexample :
    (c2Result.skippedFiles.length = 2) ∧
    (∀ r ∈ c2Result.skippedFiles, r.path ≠ "node_modules/pkg/index.js") := by decide

/-- C2 (amended): gathering the scenario directory with manual pattern
`["dist"]` and test artifacts not allowed yields `fileCount = 1`,
markdown containing the content of `index.ts` and of no other file,
and exactly TWO skip records: `pre-filtered` for `app.test.ts` and
`ai-excluded` for the directory `dist`; the pre-filtered directory
`node_modules` is skipped silently, so its contents are never
enumerated and get no record. -/
theorem c2_scenario_amended :
    c2Result.fileCount = 1 ∧
    c2Result.skippedFiles =
      [⟨"app.test.ts", "pre-filtered"⟩, ⟨"dist", "ai-excluded"⟩] ∧
    containsSub c2Result.markdown "export const main = 1;" = true ∧
    containsSub c2Result.markdown "compiled-output-content" = false ∧
    containsSub c2Result.markdown "pkg-noise-content" = false ∧
    containsSub c2Result.markdown "test-artifact-content" = false := by decide

/-! ### String lemmas for the cache-key analysis -/

theorem strData_inj {s t : String} (h : s.data = t.data) : s = t := by
  cases s; cases t; exact congrArg String.mk h

theorem strApp_left_cancel {a x y : String} (h : a ++ x = a ++ y) : x = y := by
  apply strData_inj
  have hd : a.data ++ x.data = a.data ++ y.data := by
    rw [← String.data_append, ← String.data_append, h]
  exact List.append_cancel_left hd

theorem strApp_right_cancel {x y a : String} (h : x ++ a = y ++ a) : x = y := by
  apply strData_inj
  have hd : x.data ++ a.data = y.data ++ a.data := by
    rw [← String.data_append, ← String.data_append, h]
  exact List.append_cancel_right hd

theorem strConcat_cons (a : String) (r : List String) :
    strConcat (a :: r) = a ++ strConcat r := rfl

theorem strConcat_cancel : ∀ (pre : List String) (x y : String) (suf : List String),
    strConcat (pre ++ x :: suf) = strConcat (pre ++ y :: suf) → x = y
  | [], x, y, suf, h => by
    simp only [List.nil_append, strConcat_cons] at h
    exact strApp_right_cancel h
  | a :: pre, x, y, suf, h => by
    simp only [List.cons_append, strConcat_cons] at h
    exact strConcat_cancel pre x y suf (strApp_left_cancel h)

theorem makeKey_ne_of_slot (digest : String → String) (hinj : Function.Injective digest)
    (pre : List KeyPart) (x y : KeyPart) (suf : List KeyPart)
    (hxy : serializePart x ≠ serializePart y) :
    makeKey digest (pre ++ x :: suf) ≠ makeKey digest (pre ++ y :: suf) := by
  intro h
  apply hxy
  have hinput : makeKeyInput (pre ++ x :: suf) = makeKeyInput (pre ++ y :: suf) := hinj h
  unfold makeKeyInput at hinput
  rw [List.map_append, List.map_cons, List.map_append, List.map_cons] at hinput
  exact strConcat_cancel (pre.map serializePart) _ _ (suf.map serializePart) hinput

/-! ### Decimal rendering: injectivity and character range -/

theorem digitsRevAux_lt10 : ∀ (fuel n : Nat) (d : Nat), d ∈ digitsRevAux fuel n → d < 10
  | _, 0, d => by intro h; simp [digitsRevAux] at h
  | 0, _ + 1, d => by intro h; simp [digitsRevAux] at h
  | fuel + 1, n + 1, d => by
    intro h
    simp only [digitsRevAux, List.mem_cons] at h
    rcases h with h | h
    · subst h; exact Nat.mod_lt _ (by omega)
    · exact digitsRevAux_lt10 fuel ((n + 1) / 10) d h

theorem digitsRevAux_spec : ∀ (fuel n : Nat), n ≤ fuel →
    fromDigitsRev (digitsRevAux fuel n) = n
  | fuel, 0, _ => by cases fuel <;> simp [digitsRevAux, fromDigitsRev]
  | 0, n + 1, h => by omega
  | fuel + 1, n + 1, h => by
    have hrec : fromDigitsRev (digitsRevAux fuel ((n + 1) / 10)) = (n + 1) / 10 :=
      digitsRevAux_spec fuel ((n + 1) / 10) (by
        have : (n + 1) / 10 < n + 1 := Nat.div_lt_self (by omega) (by omega)
        omega)
    simp only [digitsRevAux, fromDigitsRev, hrec]
    omega

theorem digitsRev_spec (n : Nat) : fromDigitsRev (digitsRev n) = n :=
  digitsRevAux_spec n n (Nat.le_refl n)

theorem digitChar_inj_lt10 : ∀ d < 10, ∀ e < 10, digitChar d = digitChar e → d = e := by decide

theorem mapDigitChar_inj : ∀ (l₁ l₂ : List Nat), (∀ d ∈ l₁, d < 10) → (∀ d ∈ l₂, d < 10) →
    l₁.map digitChar = l₂.map digitChar → l₁ = l₂
  | [], [], _, _, _ => rfl
  | [], _ :: _, _, _, h => by simp at h
  | _ :: _, [], _, _, h => by simp at h
  | a :: r₁, b :: r₂, h₁, h₂, h => by
    simp only [List.map_cons, List.cons.injEq] at h
    have ha : a = b := digitChar_inj_lt10 a (h₁ a (by simp)) b (h₂ b (by simp)) h.1
    have hr : r₁ = r₂ := mapDigitChar_inj r₁ r₂ (fun d hd => h₁ d (by simp [hd]))
      (fun d hd => h₂ d (by simp [hd])) h.2
    rw [ha, hr]

theorem natToString_ne_zero_str (b : Nat) (hb : b ≠ 0) : natToString b ≠ "0" := by
  intro h0
  unfold natToString at h0
  rw [if_neg hb] at h0
  have hdata := congrArg String.data h0
  simp only at hdata
  have hrevd : (digitsRev b).reverse = [0] := by
    apply mapDigitChar_inj ((digitsRev b).reverse) [0]
      (fun d hd => digitsRevAux_lt10 b b d (List.mem_reverse.mp hd))
      (by intro d hd; simp at hd; omega)
    exact hdata.trans (by decide)
  have hd : digitsRev b = [0] := by simpa using congrArg List.reverse hrevd
  have hspec := digitsRev_spec b
  rw [hd] at hspec
  simp [fromDigitsRev] at hspec
  exact hb hspec.symm

theorem natToString_inj : ∀ (a b : Nat), natToString a = natToString b → a = b := by
  have key : ∀ (a b : Nat), a ≠ 0 → b ≠ 0 → natToString a = natToString b → a = b := by
    intro a b ha hb h
    unfold natToString at h
    rw [if_neg ha, if_neg hb] at h
    have hdata := congrArg String.data h
    simp only at hdata
    have hrev : (digitsRev a).reverse = (digitsRev b).reverse :=
      mapDigitChar_inj _ _
        (fun d hd => digitsRevAux_lt10 a a d (List.mem_reverse.mp hd))
        (fun d hd => digitsRevAux_lt10 b b d (List.mem_reverse.mp hd)) hdata
    have hdig : digitsRev a = digitsRev b := List.reverse_injective hrev
    rw [← digitsRev_spec a, ← digitsRev_spec b, hdig]
  intro a b h
  by_cases ha : a = 0 <;> by_cases hb : b = 0
  · rw [ha, hb]
  · exfalso
    rw [ha] at h
    exact natToString_ne_zero_str b hb h.symm
  · exfalso
    rw [hb] at h
    exact natToString_ne_zero_str a ha h
  · exact key a b ha hb h

theorem natToString_char_range (n : Nat) :
    ∀ c ∈ (natToString n).data, 48 ≤ c.toNat ∧ c.toNat ≤ 57 := by
  intro c hc
  unfold natToString at hc
  by_cases hn : n = 0
  · rw [if_pos hn] at hc
    have : c = '0' := by simpa using hc
    rw [this]; decide
  · rw [if_neg hn] at hc
    simp only [List.mem_map] at hc
    obtain ⟨d, hd, hdc⟩ := hc
    have hlt : d < 10 := digitsRevAux_lt10 n n d (List.mem_reverse.mp hd)
    subst hdc
    interval_cases d <;> decide

theorem natToString_no_comma (n : Nat) : ',' ∉ (natToString n).data := by
  intro h
  have := natToString_char_range n ',' h
  revert this; decide

theorem natToString_no_quote (n : Nat) : '"' ∉ (natToString n).data := by
  intro h
  have := natToString_char_range n '"' h
  revert this; decide

/-- The first occurrence of a character splits a list uniquely. -/
theorem splitFirst (c : Char) : ∀ (xs ys us vs : List Char), c ∉ xs → c ∉ ys →
    xs ++ c :: us = ys ++ c :: vs → xs = ys ∧ us = vs
  | [], [], us, vs, _, _, h => by simpa using h
  | [], y :: ys, us, vs, _, hy, h => by
    simp only [List.nil_append, List.cons_append, List.cons.injEq] at h
    exact absurd (by rw [h.1]; exact List.mem_cons_self y ys) hy
  | x :: xs, [], us, vs, hx, _, h => by
    simp only [List.cons_append, List.nil_append, List.cons.injEq] at h
    exact absurd (by rw [← h.1]; exact List.mem_cons_self x xs) hx
  | x :: xs, y :: ys, us, vs, hx, hy, h => by
    simp only [List.cons_append, List.cons.injEq] at h
    have hxy := h.1
    have hrec := splitFirst c xs ys us vs (fun hm => hx (List.mem_cons_of_mem x hm))
      (fun hm => hy (List.mem_cons_of_mem y hm)) h.2
    exact ⟨by rw [hxy, hrec.1], hrec.2⟩

theorem joinSep_char_inj (c : Char) (sep : String) (hsep : sep.data = [c]) :
    ∀ (l₁ l₂ : List String),
      (∀ s ∈ l₁, s.data ≠ [] ∧ c ∉ s.data) → (∀ s ∈ l₂, s.data ≠ [] ∧ c ∉ s.data) →
      joinSep sep l₁ = joinSep sep l₂ → l₁ = l₂
  | [], [], _, _, _ => rfl
  | [], b :: r₂, _, h₂, h => by
    exfalso
    have hd := congrArg String.data h
    cases r₂ with
    | nil =>
      simp only [joinSep] at hd
      exact (h₂ b (by simp)).1 hd.symm
    | cons b₂ r₂' =>
      simp only [joinSep, String.data_append] at hd
      have hb := h₂ b (by simp)
      cases hcase : b.data with
      | nil => exact hb.1 hcase
      | cons bc brest => rw [hcase] at hd; simp at hd
  | a :: r₁, [], h₁, _, h => by
    exfalso
    have hd := congrArg String.data h
    cases r₁ with
    | nil =>
      simp only [joinSep] at hd
      exact (h₁ a (by simp)).1 hd
    | cons a₂ r₁' =>
      simp only [joinSep, String.data_append] at hd
      have ha := h₁ a (by simp)
      cases hcase : a.data with
      | nil => exact ha.1 hcase
      | cons ac arest => rw [hcase] at hd; simp at hd
  | a :: r₁, b :: r₂, h₁, h₂, h => by
    have hd := congrArg String.data h
    cases r₁ with
    | nil =>
      cases r₂ with
      | nil =>
        simp only [joinSep] at h
        rw [h]
      | cons b₂ r₂' =>
        exfalso
        simp only [joinSep, String.data_append, hsep] at hd
        have hmem : c ∈ a.data := by
          rw [hd]
          simp only [List.append_assoc, List.mem_append]
          right; simp
        exact (h₁ a (by simp)).2 hmem
    | cons a₂ r₁' =>
      cases r₂ with
      | nil =>
        exfalso
        simp only [joinSep, String.data_append, hsep] at hd
        have hmem : c ∈ b.data := by
          rw [← hd]
          simp only [List.append_assoc, List.mem_append]
          right; simp
        exact (h₂ b (by simp)).2 hmem
      | cons b₂ r₂' =>
        simp only [joinSep, String.data_append, hsep, List.append_assoc,
          List.singleton_append] at hd
        have hsplit := splitFirst c a.data b.data _ _ (h₁ a (by simp)).2 (h₂ b (by simp)).2 hd
        have hab : a = b := strData_inj hsplit.1
        have hJ : joinSep sep (a₂ :: r₁') = joinSep sep (b₂ :: r₂') := strData_inj hsplit.2
        have hrest := joinSep_char_inj c sep hsep (a₂ :: r₁') (b₂ :: r₂')
          (fun s hs => h₁ s (List.mem_cons_of_mem a hs))
          (fun s hs => h₂ s (List.mem_cons_of_mem b hs)) hJ
        rw [hab, hrest]

/-! ### Sorting lemmas for the cache-key normalisation -/

theorem lexLe_total : ∀ (a b : List Char), lexLe a b = true ∨ lexLe b a = true
  | [], _ => Or.inl rfl
  | _ :: _, [] => Or.inr rfl
  | a :: as, b :: bs => by
    by_cases hab : a = b
    · rcases lexLe_total as bs with h | h
      · left; simp [lexLe, hab, h]
      · right; simp [lexLe, hab.symm, h]
    · have hba : ¬ b = a := fun h => hab h.symm
      rcases lt_or_gt_of_ne hab with hlt | hgt
      · left; simp [lexLe, hab, hlt]
      · right
        have hlt : b < a := hgt
        simp [lexLe, hba, hlt]

theorem lexLe_antisymm : ∀ (a b : List Char), lexLe a b = true → lexLe b a = true → a = b
  | [], [], _, _ => rfl
  | [], _ :: _, _, h => by simp [lexLe] at h
  | _ :: _, [], h, _ => by simp [lexLe] at h
  | a :: as, b :: bs, h₁, h₂ => by
    by_cases hab : a = b
    · subst hab
      simp only [lexLe, if_pos rfl] at h₁ h₂
      rw [lexLe_antisymm as bs h₁ h₂]
    · have hba : ¬ b = a := fun h => hab h.symm
      simp only [lexLe, if_neg hab, decide_eq_true_eq] at h₁
      simp only [lexLe, if_neg hba, decide_eq_true_eq] at h₂
      exact absurd (lt_trans h₁ h₂) (lt_irrefl a)

theorem lexLe_trans : ∀ (a b c : List Char), lexLe a b = true → lexLe b c = true →
    lexLe a c = true
  | [], _, _, _, _ => rfl
  | _ :: _, [], _, h, _ => by simp [lexLe] at h
  | _ :: _, _ :: _, [], _, h => by simp [lexLe] at h
  | a :: as, b :: bs, c :: cs, h₁, h₂ => by
    by_cases hab : a = b <;> by_cases hbc : b = c
    · simp only [lexLe, if_pos hab, if_pos hbc] at h₁ h₂
      simp only [lexLe, if_pos (hab.trans hbc)]
      exact lexLe_trans as bs cs h₁ h₂
    · simp only [lexLe, if_pos hab, if_neg hbc, decide_eq_true_eq] at h₂
      have hac : a ≠ c := by rw [hab]; exact hbc
      simp only [lexLe, if_neg hac, decide_eq_true_eq]
      rw [hab]; exact h₂
    · simp only [lexLe, if_neg hab, decide_eq_true_eq] at h₁
      have hac : a ≠ c := by rw [← hbc]; exact hab
      simp only [lexLe, if_neg hac, decide_eq_true_eq]
      rw [← hbc]; exact h₁
    · simp only [lexLe, if_neg hab, decide_eq_true_eq] at h₁
      simp only [lexLe, if_neg hbc, decide_eq_true_eq] at h₂
      have hlt := lt_trans h₁ h₂
      simp only [lexLe, if_neg (ne_of_lt hlt), decide_eq_true_eq]
      exact hlt

theorem strLeB_total (a b : String) : strLeB a b = true ∨ strLeB b a = true :=
  lexLe_total a.data b.data

theorem strLeB_trans (a b c : String) (h₁ : strLeB a b = true) (h₂ : strLeB b c = true) :
    strLeB a c = true :=
  lexLe_trans a.data b.data c.data h₁ h₂

theorem strLeB_antisymm (a b : String) (h₁ : strLeB a b = true) (h₂ : strLeB b a = true) :
    a = b :=
  strData_inj (lexLe_antisymm a.data b.data h₁ h₂)

/-- The order relation used by the model of `Array.prototype.sort` on
strings. -/
def strLeR (a b : String) : Prop := strLeB a b = true

instance : IsAntisymm String strLeR := ⟨fun a b => strLeB_antisymm a b⟩

instance : DecidableRel strLeR := fun a b => by
  unfold strLeR; infer_instance

theorem insStr_perm (x : String) : ∀ (l : List String), (insStr x l).Perm (x :: l)
  | [] => List.Perm.refl _
  | y :: rest => by
    unfold insStr
    by_cases h : strLeB y x
    · rw [if_pos h]
      exact ((insStr_perm x rest).cons y).trans (List.Perm.swap x y rest)
    · rw [if_neg h]

theorem sortStrings_perm : ∀ (l : List String), (sortStrings l).Perm l
  | [] => List.Perm.refl _
  | a :: rest => by
    unfold sortStrings
    simp only [List.foldr_cons]
    exact (insStr_perm a _).trans ((sortStrings_perm rest).cons a)

theorem insStr_sorted (x : String) : ∀ (l : List String), l.Sorted strLeR →
    (insStr x l).Sorted strLeR
  | [], _ => List.sorted_singleton x
  | y :: rest, hs => by
    unfold insStr
    rw [List.sorted_cons] at hs
    by_cases h : strLeB y x
    · rw [if_pos h]
      rw [List.sorted_cons]
      constructor
      · intro b hb
        rcases List.mem_cons.mp ((insStr_perm x rest).mem_iff.mp hb) with hb' | hb'
        · rw [hb']; exact h
        · exact hs.1 b hb'
      · exact insStr_sorted x rest hs.2
    · rw [if_neg h]
      rw [List.sorted_cons]
      constructor
      · intro b hb
        rcases List.mem_cons.mp hb with hb' | hb'
        · rw [hb']
          rcases strLeB_total x y with ht | ht
          · exact ht
          · exact absurd ht h
        · have hxy : strLeR x y := by
            rcases strLeB_total x y with ht | ht
            · exact ht
            · exact absurd ht h
          exact strLeB_trans x y b hxy (hs.1 b hb')
      · exact List.sorted_cons.mpr hs

theorem sortStrings_sorted : ∀ (l : List String), (sortStrings l).Sorted strLeR
  | [] => List.sorted_nil
  | a :: rest => by
    unfold sortStrings
    simp only [List.foldr_cons]
    exact insStr_sorted a _ (sortStrings_sorted rest)

theorem sortStrings_eq_of_perm (l₁ l₂ : List String) (h : l₁.Perm l₂) :
    sortStrings l₁ = sortStrings l₂ :=
  List.eq_of_perm_of_sorted
    ((sortStrings_perm l₁).trans (h.trans (sortStrings_perm l₂).symm))
    (sortStrings_sorted l₁) (sortStrings_sorted l₂)

/-! ### Injectivity of the serialised `compressOptions` object -/

theorem mem_optPair {p : String × String} {n : String} {v : Option String}
    (h : p ∈ optPair n v) : ∃ s, v = some s ∧ p = (n, s) := by
  cases v with
  | none => simp [optPair] at h
  | some s =>
    simp only [optPair, List.mem_singleton] at h
    exact ⟨s, rfl, h⟩

theorem slotsPairs_names : ∀ (slots : List (String × Option String)) (p : String × String),
    p ∈ slotsPairs slots → p.1 ∈ slots.map Prod.fst
  | [], p => by simp [slotsPairs]
  | (n, v) :: rest, p => by
    intro hp
    rcases List.mem_append.mp hp with h | h
    · obtain ⟨s, _, hps⟩ := mem_optPair h
      rw [hps]
      simp
    · simp only [List.map_cons, List.mem_cons]
      exact Or.inr (slotsPairs_names rest p h)

theorem slotsPairs_inj : ∀ (s₁ s₂ : List (String × Option String)),
    s₁.map Prod.fst = s₂.map Prod.fst → (s₁.map Prod.fst).Nodup →
    slotsPairs s₁ = slotsPairs s₂ → s₁ = s₂
  | [], [], _, _, _ => rfl
  | [], _ :: _, hn, _, _ => by simp at hn
  | _ :: _, [], hn, _, _ => by simp at hn
  | (n₁, v₁) :: r₁, (n₂, v₂) :: r₂, hn, hnd, h => by
    simp only [List.map_cons, List.cons.injEq] at hn
    obtain ⟨hnn, htl⟩ := hn
    subst hnn
    simp only [List.map_cons, List.nodup_cons] at hnd
    have hnotin₁ : n₁ ∉ r₁.map Prod.fst := hnd.1
    have hnotin₂ : n₁ ∉ r₂.map Prod.fst := by rw [← htl]; exact hnd.1
    cases v₁ with
    | none =>
      cases v₂ with
      | none =>
        simp only [slotsPairs, optPair, List.nil_append] at h
        rw [slotsPairs_inj r₁ r₂ htl hnd.2 h]
      | some b =>
        exfalso
        simp only [slotsPairs, optPair, List.nil_append, List.singleton_append] at h
        have : (n₁, b) ∈ slotsPairs r₁ := by rw [h]; exact List.mem_cons_self _ _
        exact hnotin₁ (slotsPairs_names r₁ (n₁, b) this)
    | some a =>
      cases v₂ with
      | none =>
        exfalso
        simp only [slotsPairs, optPair, List.nil_append, List.singleton_append] at h
        have : (n₁, a) ∈ slotsPairs r₂ := by rw [← h]; exact List.mem_cons_self _ _
        exact hnotin₂ (slotsPairs_names r₂ (n₁, a) this)
      | some b =>
        simp only [slotsPairs, optPair, List.singleton_append, List.cons.injEq,
          Prod.mk.injEq] at h
        rw [h.1.2, slotsPairs_inj r₁ r₂ htl hnd.2 h.2]

theorem jsonBool_inj : ∀ (b₁ b₂ : Bool), jsonBool b₁ = jsonBool b₂ → b₁ = b₂ := by decide

theorem optMap_inj {X : Type} (f : X → String) (hf : ∀ x y, f x = f y → x = y)
    (a b : Option X) (h : a.map f = b.map f) : a = b := by
  cases a <;> cases b <;> simp_all
  exact hf _ _ h

theorem compressOptionPairs_inj (o₁ o₂ : CompressOptions)
    (h : compressOptionPairs o₁ = compressOptionPairs o₂) : o₁ = o₂ := by
  have hnames : (compressSlots o₁).map Prod.fst = (compressSlots o₂).map Prod.fst := rfl
  have hnodup : ((compressSlots o₁).map Prod.fst).Nodup := by
    show (["removeComments", "minifyWhitespace", "extractSignaturesOnly", "maxFileLines",
      "preserveImports", "preserveExports", "preserveTypes",
      "preserveFunctionSignatures"] : List String).Nodup
    decide
  have hslots := slotsPairs_inj _ _ hnames hnodup h
  cases o₁; cases o₂
  simp only [compressSlots, List.cons.injEq, Prod.mk.injEq, true_and, and_true] at hslots
  obtain ⟨h1, h2, h3, h4, h5, h6, h7, h8⟩ := hslots
  simp only [CompressOptions.mk.injEq]
  exact ⟨optMap_inj jsonBool jsonBool_inj _ _ h1, optMap_inj jsonBool jsonBool_inj _ _ h2,
    optMap_inj jsonBool jsonBool_inj _ _ h3, optMap_inj natToString natToString_inj _ _ h4,
    optMap_inj jsonBool jsonBool_inj _ _ h5, optMap_inj jsonBool jsonBool_inj _ _ h6,
    optMap_inj jsonBool jsonBool_inj _ _ h7, optMap_inj jsonBool jsonBool_inj _ _ h8⟩

theorem jsonBool_no_comma (b : Bool) : ',' ∉ (jsonBool b).data := by cases b <;> decide

theorem clean_of_bool_slot {name : String} (hn : ',' ∉ name.data ∧ '"' ∉ name.data)
    {f : Option Bool} {s : String} (hv : f.map jsonBool = some s) :
    (',' ∉ name.data ∧ '"' ∉ name.data) ∧ ',' ∉ s.data := by
  obtain ⟨b, _, hb⟩ := Option.map_eq_some'.mp hv
  exact ⟨hn, hb ▸ jsonBool_no_comma b⟩

theorem clean_of_nat_slot {name : String} (hn : ',' ∉ name.data ∧ '"' ∉ name.data)
    {f : Option Nat} {s : String} (hv : f.map natToString = some s) :
    (',' ∉ name.data ∧ '"' ∉ name.data) ∧ ',' ∉ s.data := by
  obtain ⟨m, _, hm⟩ := Option.map_eq_some'.mp hv
  exact ⟨hn, hm ▸ natToString_no_comma m⟩

/-- Cleanliness of every serialised pair: the name is free of commas
and quotes (it is one of eight fixed identifiers) and the value (a JSON
boolean or decimal number) is free of commas. -/
theorem compressPairs_clean (o : CompressOptions) : ∀ p ∈ compressOptionPairs o,
    (',' ∉ p.1.data ∧ '"' ∉ p.1.data) ∧ ',' ∉ p.2.data := by
  intro p hp
  unfold compressOptionPairs compressSlots at hp
  simp only [slotsPairs, List.append_assoc, List.mem_append, List.append_nil] at hp
  have hclean : ∀ n : String, n = "removeComments" ∨ n = "minifyWhitespace" ∨
      n = "extractSignaturesOnly" ∨ n = "maxFileLines" ∨ n = "preserveImports" ∨
      n = "preserveExports" ∨ n = "preserveTypes" ∨ n = "preserveFunctionSignatures" →
      ',' ∉ n.data ∧ '"' ∉ n.data := by
    intro n hn
    rcases hn with rfl | rfl | rfl | rfl | rfl | rfl | rfl | rfl <;> exact ⟨by decide, by decide⟩
  rcases hp with h | h | h | h | h | h | h | h <;>
    obtain ⟨s, hv, hps⟩ := mem_optPair h <;>
    subst hps
  · exact clean_of_bool_slot (hclean _ (by tauto)) hv
  · exact clean_of_bool_slot (hclean _ (by tauto)) hv
  · exact clean_of_bool_slot (hclean _ (by tauto)) hv
  · exact clean_of_nat_slot (hclean _ (by tauto)) hv
  · exact clean_of_bool_slot (hclean _ (by tauto)) hv
  · exact clean_of_bool_slot (hclean _ (by tauto)) hv
  · exact clean_of_bool_slot (hclean _ (by tauto)) hv
  · exact clean_of_bool_slot (hclean _ (by tauto)) hv

theorem jsonField_data (n v : String) :
    (jsonField n v).data = '"' :: (n.data ++ '"' :: ':' :: v.data) := by
  show (("\"" ++ n ++ "\":") ++ v).data = _
  simp [String.data_append, List.append_assoc]

theorem jsonField_ne_empty (n v : String) : (jsonField n v).data ≠ [] := by
  rw [jsonField_data]; simp

theorem jsonField_no_comma (n v : String) (hn : ',' ∉ n.data) (hv : ',' ∉ v.data) :
    ',' ∉ (jsonField n v).data := by
  rw [jsonField_data]
  intro hmem
  simp only [List.mem_cons, List.mem_append] at hmem
  rcases hmem with h | h | h | h | h
  · exact absurd h (by decide)
  · exact hn h
  · exact absurd h (by decide)
  · exact absurd h (by decide)
  · exact hv h

theorem jsonField_inj (n₁ v₁ n₂ v₂ : String) (h₁ : '"' ∉ n₁.data) (h₂ : '"' ∉ n₂.data)
    (h : jsonField n₁ v₁ = jsonField n₂ v₂) : n₁ = n₂ ∧ v₁ = v₂ := by
  have hd := congrArg String.data h
  rw [jsonField_data, jsonField_data] at hd
  have hd' : n₁.data ++ '"' :: (':' :: v₁.data) = n₂.data ++ '"' :: (':' :: v₂.data) :=
    (List.cons.inj hd).2
  have hsplit := splitFirst '"' n₁.data n₂.data _ _ h₁ h₂ hd'
  refine ⟨strData_inj hsplit.1, strData_inj ?_⟩
  exact (List.cons.inj hsplit.2).2

theorem map_inj_on {α β : Type} (g : α → β) : ∀ (l₁ l₂ : List α),
    (∀ a ∈ l₁, ∀ b ∈ l₂, g a = g b → a = b) → l₁.map g = l₂.map g → l₁ = l₂
  | [], [], _, _ => rfl
  | [], _ :: _, _, h => by simp at h
  | _ :: _, [], _, h => by simp at h
  | a :: r₁, b :: r₂, hg, h => by
    simp only [List.map_cons, List.cons.injEq] at h
    have hab : a = b := hg a (by simp) b (by simp) h.1
    have hr : r₁ = r₂ := map_inj_on g r₁ r₂
      (fun x hx y hy => hg x (by simp [hx]) y (by simp [hy])) h.2
    rw [hab, hr]

/-- `JSON.stringify` of distinct option objects differs: the canonical
serialisation is injective. -/
theorem jsonCompressOptions_inj (o₁ o₂ : CompressOptions)
    (h : jsonCompressOptions o₁ = jsonCompressOptions o₂) : o₁ = o₂ := by
  -- strip the braces
  have hd := congrArg String.data h
  unfold jsonCompressOptions at hd
  simp only [String.data_append] at hd
  have hinner :
      (joinSep "," ((compressOptionPairs o₁).map (fun p => jsonField p.1 p.2))).data =
      (joinSep "," ((compressOptionPairs o₂).map (fun p => jsonField p.1 p.2))).data := by
    simpa [List.append_assoc] using hd
  have hJ := strData_inj hinner
  -- the comma-joined item lists coincide
  have hitems := joinSep_char_inj ',' "," (by decide) _ _
    (by
      intro s hs
      simp only [List.mem_map] at hs
      obtain ⟨p, hp, hps⟩ := hs
      have hc := compressPairs_clean o₁ p hp
      exact ⟨hps ▸ jsonField_ne_empty p.1 p.2,
        hps ▸ jsonField_no_comma p.1 p.2 hc.1.1 hc.2⟩)
    (by
      intro s hs
      simp only [List.mem_map] at hs
      obtain ⟨p, hp, hps⟩ := hs
      have hc := compressPairs_clean o₂ p hp
      exact ⟨hps ▸ jsonField_ne_empty p.1 p.2,
        hps ▸ jsonField_no_comma p.1 p.2 hc.1.1 hc.2⟩)
    hJ
  -- the pair lists coincide
  have hpairs := map_inj_on (fun p : String × String => jsonField p.1 p.2) _ _
    (by
      intro a ha b hb hgab
      have hca := compressPairs_clean o₁ a ha
      have hcb := compressPairs_clean o₂ b hb
      have := jsonField_inj a.1 a.2 b.1 b.2 hca.1.2 hcb.1.2 hgab
      exact Prod.ext this.1 this.2)
    hitems
  exact compressOptionPairs_inj o₁ o₂ hpairs

theorem serializePart_pbool_ne (b₁ b₂ : Bool) (h : b₁ ≠ b₂) :
    serializePart (.pbool b₁) ≠ serializePart (.pbool b₂) := by
  cases b₁ <;> cases b₂
  · exact absurd rfl h
  · decide
  · decide
  · exact absurd rfl h

theorem serializePart_pnum_ne (n₁ n₂ : Nat) (h : n₁ ≠ n₂) :
    serializePart (.pnum n₁) ≠ serializePart (.pnum n₂) :=
  fun hs => h (natToString_inj n₁ n₂ hs)

theorem joinSep_sortStrings_ne (c : Char) (sep : String) (hsep : sep.data = [c])
    (l₁ l₂ : List String)
    (h₁ : ∀ s ∈ l₁, s.data ≠ [] ∧ c ∉ s.data) (h₂ : ∀ s ∈ l₂, s.data ≠ [] ∧ c ∉ s.data)
    (hne : sortStrings l₁ ≠ sortStrings l₂) :
    joinSep sep (sortStrings l₁) ≠ joinSep sep (sortStrings l₂) := by
  intro h
  apply hne
  exact joinSep_char_inj c sep hsep _ _
    (fun s hs => h₁ s ((sortStrings_perm l₁).mem_iff.mp hs))
    (fun s hs => h₂ s ((sortStrings_perm l₂).mem_iff.mp hs)) h

/-! ### Claim C3 -/

/-- C3 counterexample: the path list is serialised by sorting and
joining with `"|"` before hashing, so the distinct path lists
`["a|b"]` and `["a", "b"]` feed the identical byte string to the
digest — the cache key is the same for genuinely different paths,
refuting "changing any one semantically relevant option changes the
key". -/
theorem c3_cache_key_counterexample :
    cacheKeyInput ["a|b"] {} = cacheKeyInput ["a", "b"] {} ∧
    generateCacheKey (fun s => s) ["a|b"] {} = generateCacheKey (fun s => s) ["a", "b"] {} ∧
    (["a|b"] : List String) ≠ ["a", "b"] := by decide

/-- C3 (amended): `makeKey`/`generateCacheKey` is a pure function of
the order-normalised inputs — permuting the path list or the
exclusion-pattern list never changes the key, for any digest — and,
for any injective digest (the collision-free model of SHA-256),
changing any single option changes the key, where for the two list
options the change must alter the sorted list and the entries must not
contain the join separator (`'|'` for paths, `','` for patterns), the
degenerate case the counterexample exhibits. -/
theorem c3_cache_key_amended (digest : String → String) :
    (∀ (paths₁ paths₂ : List String) (opts : ContextKeyOptions) (pats₁ pats₂ : List String),
      paths₁.Perm paths₂ → pats₁.Perm pats₂ →
      generateCacheKey digest paths₁ { opts with excludePatterns := some pats₁ } =
        generateCacheKey digest paths₂ { opts with excludePatterns := some pats₂ }) ∧
    (Function.Injective digest →
      (∀ (paths : List String) (opts : ContextKeyOptions) (b₁ b₂ : Bool), b₁ ≠ b₂ →
        generateCacheKey digest paths { opts with compress := some b₁ } ≠
          generateCacheKey digest paths { opts with compress := some b₂ }) ∧
      (∀ (paths : List String) (opts : ContextKeyOptions) (b₁ b₂ : Bool), b₁ ≠ b₂ →
        generateCacheKey digest paths { opts with allowTestFiles := some b₁ } ≠
          generateCacheKey digest paths { opts with allowTestFiles := some b₂ }) ∧
      (∀ (paths : List String) (opts : ContextKeyOptions) (n₁ n₂ : Nat), n₁ ≠ n₂ →
        generateCacheKey digest paths { opts with maxFileSize := some n₁ } ≠
          generateCacheKey digest paths { opts with maxFileSize := some n₂ }) ∧
      (∀ (paths : List String) (opts : ContextKeyOptions) (n₁ n₂ : Nat), n₁ ≠ n₂ →
        generateCacheKey digest paths { opts with maxDepth := some n₁ } ≠
          generateCacheKey digest paths { opts with maxDepth := some n₂ }) ∧
      (∀ (paths : List String) (opts : ContextKeyOptions) (n₁ n₂ : Nat), n₁ ≠ n₂ →
        generateCacheKey digest paths { opts with maxTreeItems := some n₁ } ≠
          generateCacheKey digest paths { opts with maxTreeItems := some n₂ }) ∧
      (∀ (paths₁ paths₂ : List String) (opts : ContextKeyOptions),
        (∀ s ∈ paths₁, s.data ≠ [] ∧ '|' ∉ s.data) →
        (∀ s ∈ paths₂, s.data ≠ [] ∧ '|' ∉ s.data) →
        sortStrings paths₁ ≠ sortStrings paths₂ →
        generateCacheKey digest paths₁ opts ≠ generateCacheKey digest paths₂ opts) ∧
      (∀ (paths : List String) (opts : ContextKeyOptions) (pats₁ pats₂ : List String),
        (∀ s ∈ pats₁, s.data ≠ [] ∧ ',' ∉ s.data) →
        (∀ s ∈ pats₂, s.data ≠ [] ∧ ',' ∉ s.data) →
        sortStrings pats₁ ≠ sortStrings pats₂ →
        generateCacheKey digest paths { opts with excludePatterns := some pats₁ } ≠
          generateCacheKey digest paths { opts with excludePatterns := some pats₂ }) ∧
      (∀ (paths : List String) (opts : ContextKeyOptions) (co₁ co₂ : CompressOptions),
        co₁ ≠ co₂ →
        generateCacheKey digest paths { opts with compressOptions := some co₁ } ≠
          generateCacheKey digest paths { opts with compressOptions := some co₂ })) := by
  constructor
  · intro paths₁ paths₂ opts pats₁ pats₂ hperm hpperm
    have h1 := sortStrings_eq_of_perm paths₁ paths₂ hperm
    have h2 := sortStrings_eq_of_perm pats₁ pats₂ hpperm
    simp only [generateCacheKey, makeKey, makeKeyInput, cacheKeyParts, Option.getD_some]
    rw [h1, h2]
  · intro hinj
    refine ⟨?_, ?_, ?_, ?_, ?_, ?_, ?_, ?_⟩
    · intro paths opts b₁ b₂ hb
      exact makeKey_ne_of_slot digest hinj
        [.pstr (joinSep "|" (sortStrings paths))] (.pbool b₁) (.pbool b₂)
        [.pbool (opts.allowTestFiles.getD false), .pnum (opts.maxFileSize.getD 0),
         .pnum (opts.maxDepth.getD 0), .pnum (opts.maxTreeItems.getD 0),
         .pstr (joinSep "," (sortStrings (opts.excludePatterns.getD []))),
         .pstr (jsonCompressOptions (opts.compressOptions.getD {}))]
        (serializePart_pbool_ne b₁ b₂ hb)
    · intro paths opts b₁ b₂ hb
      exact makeKey_ne_of_slot digest hinj
        [.pstr (joinSep "|" (sortStrings paths)), .pbool (opts.compress.getD true)]
        (.pbool b₁) (.pbool b₂)
        [.pnum (opts.maxFileSize.getD 0), .pnum (opts.maxDepth.getD 0),
         .pnum (opts.maxTreeItems.getD 0),
         .pstr (joinSep "," (sortStrings (opts.excludePatterns.getD []))),
         .pstr (jsonCompressOptions (opts.compressOptions.getD {}))]
        (serializePart_pbool_ne b₁ b₂ hb)
    · intro paths opts n₁ n₂ hn
      exact makeKey_ne_of_slot digest hinj
        [.pstr (joinSep "|" (sortStrings paths)), .pbool (opts.compress.getD true),
         .pbool (opts.allowTestFiles.getD false)] (.pnum n₁) (.pnum n₂)
        [.pnum (opts.maxDepth.getD 0), .pnum (opts.maxTreeItems.getD 0),
         .pstr (joinSep "," (sortStrings (opts.excludePatterns.getD []))),
         .pstr (jsonCompressOptions (opts.compressOptions.getD {}))]
        (serializePart_pnum_ne n₁ n₂ hn)
    · intro paths opts n₁ n₂ hn
      exact makeKey_ne_of_slot digest hinj
        [.pstr (joinSep "|" (sortStrings paths)), .pbool (opts.compress.getD true),
         .pbool (opts.allowTestFiles.getD false), .pnum (opts.maxFileSize.getD 0)]
        (.pnum n₁) (.pnum n₂)
        [.pnum (opts.maxTreeItems.getD 0),
         .pstr (joinSep "," (sortStrings (opts.excludePatterns.getD []))),
         .pstr (jsonCompressOptions (opts.compressOptions.getD {}))]
        (serializePart_pnum_ne n₁ n₂ hn)
    · intro paths opts n₁ n₂ hn
      exact makeKey_ne_of_slot digest hinj
        [.pstr (joinSep "|" (sortStrings paths)), .pbool (opts.compress.getD true),
         .pbool (opts.allowTestFiles.getD false), .pnum (opts.maxFileSize.getD 0),
         .pnum (opts.maxDepth.getD 0)] (.pnum n₁) (.pnum n₂)
        [.pstr (joinSep "," (sortStrings (opts.excludePatterns.getD []))),
         .pstr (jsonCompressOptions (opts.compressOptions.getD {}))]
        (serializePart_pnum_ne n₁ n₂ hn)
    · intro paths₁ paths₂ opts h₁ h₂ hne
      exact makeKey_ne_of_slot digest hinj
        [] (.pstr (joinSep "|" (sortStrings paths₁))) (.pstr (joinSep "|" (sortStrings paths₂)))
        [.pbool (opts.compress.getD true), .pbool (opts.allowTestFiles.getD false),
         .pnum (opts.maxFileSize.getD 0), .pnum (opts.maxDepth.getD 0),
         .pnum (opts.maxTreeItems.getD 0),
         .pstr (joinSep "," (sortStrings (opts.excludePatterns.getD []))),
         .pstr (jsonCompressOptions (opts.compressOptions.getD {}))]
        (joinSep_sortStrings_ne '|' "|" (by decide) paths₁ paths₂ h₁ h₂ hne)
    · intro paths opts pats₁ pats₂ h₁ h₂ hne
      exact makeKey_ne_of_slot digest hinj
        [.pstr (joinSep "|" (sortStrings paths)), .pbool (opts.compress.getD true),
         .pbool (opts.allowTestFiles.getD false), .pnum (opts.maxFileSize.getD 0),
         .pnum (opts.maxDepth.getD 0), .pnum (opts.maxTreeItems.getD 0)]
        (.pstr (joinSep "," (sortStrings pats₁))) (.pstr (joinSep "," (sortStrings pats₂)))
        [.pstr (jsonCompressOptions (opts.compressOptions.getD {}))]
        (joinSep_sortStrings_ne ',' "," (by decide) pats₁ pats₂ h₁ h₂ hne)
    · intro paths opts co₁ co₂ hco
      exact makeKey_ne_of_slot digest hinj
        [.pstr (joinSep "|" (sortStrings paths)), .pbool (opts.compress.getD true),
         .pbool (opts.allowTestFiles.getD false), .pnum (opts.maxFileSize.getD 0),
         .pnum (opts.maxDepth.getD 0), .pnum (opts.maxTreeItems.getD 0),
         .pstr (joinSep "," (sortStrings (opts.excludePatterns.getD [])))]
        (.pstr (jsonCompressOptions co₁)) (.pstr (jsonCompressOptions co₂)) []
        (fun hs => hco (jsonCompressOptions_inj co₁ co₂ hs))

/-- C3 witness: with the identity digest, swapping the presentation
order of paths and patterns leaves the key unchanged, while flipping
the `compress` flag changes it. -/
theorem c3_cache_key_amended_witness :
    generateCacheKey (fun s => s) ["b", "a"]
        { excludePatterns := some ["q", "p"] } =
      generateCacheKey (fun s => s) ["a", "b"]
        { excludePatterns := some ["p", "q"] } ∧
    generateCacheKey (fun s => s) ["a"] { compress := some true } ≠
      generateCacheKey (fun s => s) ["a"] { compress := some false } :=
  ⟨(c3_cache_key_amended (fun s => s)).1 ["b", "a"] ["a", "b"] {} ["q", "p"] ["p", "q"]
    (by decide) (by decide),
   ((c3_cache_key_amended (fun s => s)).2 (fun a b h => h)).1 ["a"] {} true false
    (by decide)⟩

/-! ### Cache lemmas -/

theorem writeRecord_mem (name : String) (v : α) (t : Nat) :
    ∀ s : CacheDir α, (⟨name, v, t⟩ : CacheEntry α) ∈ writeRecord name v t s
  | [] => by simp [writeRecord]
  | e :: rest => by
    unfold writeRecord
    by_cases h : e.name = name
    · rw [if_pos h]; exact List.mem_cons_self _ _
    · rw [if_neg h]; exact List.mem_cons_of_mem e (writeRecord_mem name v t rest)

theorem writeRecord_precise (name : String) (v : α) (t : Nat) :
    ∀ (s : CacheDir α), (s.map (fun e => e.name)).Nodup →
      ∀ e ∈ writeRecord name v t s, e = ⟨name, v, t⟩ ∨ (e ∈ s ∧ e.name ≠ name)
  | [], _, e, he => by
    simp [writeRecord] at he
    exact Or.inl he
  | h :: rest, hnd, e, he => by
    simp only [List.map_cons, List.nodup_cons] at hnd
    unfold writeRecord at he
    by_cases hh : h.name = name
    · rw [if_pos hh] at he
      rcases List.mem_cons.mp he with he' | he'
      · exact Or.inl he'
      · right
        refine ⟨List.mem_cons_of_mem h he', ?_⟩
        intro hen
        apply hnd.1
        rw [hh, ← hen]
        exact List.mem_map_of_mem (fun e => e.name) he'
    · rw [if_neg hh] at he
      rcases List.mem_cons.mp he with he' | he'
      · exact Or.inr ⟨by rw [he']; exact List.mem_cons_self h rest, by rw [he']; exact hh⟩
      · rcases writeRecord_precise name v t rest hnd.2 e he' with h1 | h1
        · exact Or.inl h1
        · exact Or.inr ⟨List.mem_cons_of_mem h h1.1, h1.2⟩

theorem writeRecord_nodup (name : String) (v : α) (t : Nat) :
    ∀ (s : CacheDir α), (s.map (fun e => e.name)).Nodup →
      ((writeRecord name v t s).map (fun e => e.name)).Nodup
  | [], _ => by simp [writeRecord]
  | h :: rest, hnd => by
    simp only [List.map_cons, List.nodup_cons] at hnd
    unfold writeRecord
    by_cases hh : h.name = name
    · rw [if_pos hh]
      simp only [List.map_cons, List.nodup_cons]
      exact ⟨by rw [← hh]; exact hnd.1, hnd.2⟩
    · rw [if_neg hh]
      simp only [List.map_cons, List.nodup_cons]
      constructor
      · intro hmem
        simp only [List.mem_map] at hmem
        obtain ⟨e, he, hen⟩ := hmem
        rcases writeRecord_precise name v t rest hnd.2 e he with h1 | h1
        · rw [h1] at hen; exact hh hen.symm
        · exact hnd.1 (by rw [← hen]; exact List.mem_map_of_mem (fun e => e.name) h1.1)
      · exact writeRecord_nodup name v t rest hnd.2

theorem prune_subset (cfg : CacheCfg) (s : CacheDir α) (e : CacheEntry α)
    (h : e ∈ prune cfg s) : e ∈ s := by
  unfold prune at h
  by_cases hl : s.length ≤ cfg.maxEntries
  · rw [if_pos hl] at h; exact h
  · rw [if_neg hl] at h; exact List.mem_of_mem_filter h

theorem prune_nodup (cfg : CacheCfg) (s : CacheDir α)
    (hnd : (s.map (fun e => e.name)).Nodup) :
    ((prune cfg s).map (fun e => e.name)).Nodup := by
  unfold prune
  by_cases hl : s.length ≤ cfg.maxEntries
  · rw [if_pos hl]; exact hnd
  · rw [if_neg hl]
    exact hnd.sublist ((List.filter_sublist s).map (fun e => e.name))

theorem insByTimeDesc_perm (x : CacheEntry α) :
    ∀ l : CacheDir α, (insByTimeDesc x l).Perm (x :: l)
  | [] => by simp [insByTimeDesc]
  | y :: rest => by
    unfold insByTimeDesc
    by_cases h : x.timestamp ≤ y.timestamp
    · rw [if_pos h]
      exact ((insByTimeDesc_perm x rest).cons y).trans (List.Perm.swap x y rest)
    · rw [if_neg h]

theorem sortByTimeDesc_perm : ∀ l : CacheDir α, (sortByTimeDesc l).Perm l
  | [] => List.Perm.refl []
  | a :: t => by
    show (insByTimeDesc a (sortByTimeDesc t)).Perm (a :: t)
    exact ((insByTimeDesc_perm a (sortByTimeDesc t)).trans
      ((sortByTimeDesc_perm t).cons a))

theorem sortByTimeDesc_head (w : CacheEntry α) :
    ∀ (s : CacheDir α), w ∈ s → (∀ e ∈ s, e = w ∨ e.timestamp < w.timestamp) →
      ∃ r, sortByTimeDesc s = w :: r
  | [], hw, _ => absurd hw (List.not_mem_nil w)
  | a :: t, hw, hdom => by
    have heq : sortByTimeDesc (a :: t) = insByTimeDesc a (sortByTimeDesc t) := rfl
    rw [heq]
    by_cases haw : a = w
    · subst haw
      -- every element of the sorted tail is dominated by `a`
      have hdt : ∀ e ∈ (sortByTimeDesc t : CacheDir α), e = a ∨ e.timestamp < a.timestamp := by
        intro e he
        have hmem : e ∈ t := by
          have hperm : (sortByTimeDesc t : CacheDir α).Perm t := sortByTimeDesc_perm t
          exact hperm.mem_iff.mp he
        exact hdom e (List.mem_cons_of_mem a hmem)
      cases hcase : (sortByTimeDesc t : CacheDir α) with
      | nil => exact ⟨[], rfl⟩
      | cons y m =>
        have hy := hdt y (by rw [hcase]; exact List.mem_cons_self y m)
        have hif : insByTimeDesc a (y :: m) =
            if a.timestamp ≤ y.timestamp then y :: insByTimeDesc a m else a :: y :: m := rfl
        by_cases hle : a.timestamp ≤ y.timestamp
        · rcases hy with hy' | hy'
          · exact ⟨insByTimeDesc a m, by rw [hif, if_pos hle, hy']⟩
          · omega
        · exact ⟨y :: m, by rw [hif, if_neg hle]⟩
    · have hwt : w ∈ t := by
        rcases List.mem_cons.mp hw with h | h
        · exact absurd h.symm haw
        · exact h
      have hdt : ∀ e ∈ t, e = w ∨ e.timestamp < w.timestamp :=
        fun e he => hdom e (List.mem_cons_of_mem a he)
      obtain ⟨r, hr⟩ := sortByTimeDesc_head w t hwt hdt
      have haw' : a.timestamp < w.timestamp := by
        rcases hdom a (List.mem_cons_self a t) with h | h
        · exact absurd h haw
        · exact h
      have hif : insByTimeDesc a (w :: r) =
          if a.timestamp ≤ w.timestamp then w :: insByTimeDesc a r else a :: w :: r := rfl
      exact ⟨insByTimeDesc a r, by rw [hr, hif, if_pos (by omega)]⟩

theorem prune_keeps_dominant (cfg : CacheCfg) (s : CacheDir α) (w : CacheEntry α)
    (hmax : 1 ≤ cfg.maxEntries) (hw : w ∈ s)
    (hdom : ∀ e ∈ s, e = w ∨ e.timestamp < w.timestamp) : w ∈ prune cfg s := by
  unfold prune
  by_cases hl : s.length ≤ cfg.maxEntries
  · rw [if_pos hl]; exact hw
  · rw [if_neg hl]
    obtain ⟨r, hr⟩ := sortByTimeDesc_head w s hw hdom
    apply List.mem_filter.mpr
    refine ⟨hw, ?_⟩
    apply List.any_eq_true.mpr
    refine ⟨w, ?_, by simp⟩
    obtain ⟨m, hm⟩ : ∃ m, cfg.maxEntries = m + 1 := ⟨cfg.maxEntries - 1, by omega⟩
    rw [hr, hm]
    simp [List.take_succ_cons]

theorem find_name_unique (w : CacheEntry α) :
    ∀ (l : CacheDir α), w ∈ l → (∀ e ∈ l, e.name = w.name → e = w) →
      l.find? (fun e => e.name = w.name) = some w
  | [], hw, _ => absurd hw (List.not_mem_nil w)
  | h :: rest, hw, hothers => by
    by_cases hh : h.name = w.name
    · rw [List.find?_cons_of_pos _ (by simp [hh])]
      rw [hothers h (List.mem_cons_self h rest) hh]
    · rw [List.find?_cons_of_neg _ (by simp [hh])]
      have hwr : w ∈ rest := by
        rcases List.mem_cons.mp hw with h1 | h1
        · exact absurd (by rw [← h1]) hh
        · exact h1
      exact find_name_unique w rest hwr
        (fun e he hen => hothers e (List.mem_cons_of_mem h he) hen)

theorem eraseRecord_id (name : String) :
    ∀ (l : CacheDir α), (∀ e ∈ l, e.name ≠ name) → eraseRecord name l = l := by
  intro l h
  unfold eraseRecord
  apply List.filter_eq_self.mpr
  intro e he
  simp [h e he]

theorem count_after_erase (p : String → Bool) (w : CacheEntry α) (hpw : p w.name = true) :
    ∀ (l : CacheDir α), w ∈ l → (l.map (fun e => e.name)).Nodup →
      ((eraseRecord w.name l).filter (fun e => p e.name)).length + 1 =
        (l.filter (fun e => p e.name)).length
  | [], hw, _ => absurd hw (List.not_mem_nil w)
  | h :: rest, hw, hnd => by
    simp only [List.map_cons, List.nodup_cons] at hnd
    by_cases hh : h.name = w.name
    · have hrest : ∀ e ∈ rest, e.name ≠ w.name := by
        intro e he hen
        exact hnd.1 (by rw [hh, ← hen]; exact List.mem_map_of_mem (fun e => e.name) he)
      unfold eraseRecord
      rw [List.filter_cons]
      rw [if_neg (by simp [hh])]
      have hid : rest.filter (fun e => !(e.name = w.name)) = rest :=
        List.filter_eq_self.mpr (fun e he => by simp [hrest e he])
      show ((rest.filter (fun e => !(e.name = w.name))).filter (fun e => p e.name)).length + 1 = _
      rw [hid, List.filter_cons, if_pos (by rw [hh]; exact hpw)]
      simp
    · have hwr : w ∈ rest := by
        rcases List.mem_cons.mp hw with h1 | h1
        · exact absurd (by rw [h1]) hh
        · exact h1
      have ih := count_after_erase p w hpw rest hwr hnd.2
      unfold eraseRecord
      rw [List.filter_cons, if_pos (by simp [hh])]
      show ((h :: rest.filter (fun e => !(e.name = w.name))).filter (fun e => p e.name)).length + 1 = _
      rw [List.filter_cons, List.filter_cons]
      by_cases hp : p h.name = true
      · rw [if_pos (by simp [hp]), if_pos (by simp [hp])]
        simp only [List.length_cons]
        have := ih
        unfold eraseRecord at this
        omega
      · rw [if_neg (by simp [hp]), if_neg (by simp [hp])]
        have := ih
        unfold eraseRecord at this
        omega

theorem cacheFileName_statsMatch (ns key : String) :
    statsMatch (some ns) (cacheFileName ns key) = true := by
  unfold statsMatch cacheFileName strStartsWith strEndsWith
  rw [Bool.and_eq_true]
  constructor
  · rw [List.isPrefixOf_iff_prefix]
    have : (ns ++ "__" ++ key ++ ".json").data =
        (ns ++ "__").data ++ (key.data ++ ".json".data) := by
      simp [String.data_append, List.append_assoc]
    rw [this]
    exact List.prefix_append _ _
  · rw [List.isSuffixOf_iff_suffix]
    have : (ns ++ "__" ++ key ++ ".json").data =
        ((ns ++ "__").data ++ key.data) ++ ".json".data := by
      simp [String.data_append, List.append_assoc]
    rw [this]
    exact List.suffix_append _ _

theorem cacheGet_of_find (cfg : CacheCfg) (now : Nat) (ns key : String) (s : CacheDir α)
    (w : CacheEntry α)
    (hfind : s.find? (fun e => e.name = cacheFileName ns key) = some w) :
    cacheGet cfg now ns key s =
      if cfg.ttlMs < now - w.timestamp
        then (none, eraseRecord (cacheFileName ns key) s)
        else (some w.value, s) := by
  simp only [cacheGet]
  rw [hfind]

/-- **C4** — cache round-trip with TTL.  From any directory state whose
records are all older than the write (with pairwise-distinct file names)
and a capacity of at least one record, `set(ns, key, v)` at `t₀` followed
by `get(ns, key)` at `t₁` returns `v` with the state untouched whenever
the elapsed time is within the TTL; once the elapsed time exceeds the
TTL the same `get` is a miss (`none`), the expired record is proactively
deleted (no record of that file name remains), and the `stats` entry
count for the namespace drops by exactly one. -/
theorem c4_cache_roundtrip (cfg : CacheCfg) (ns key : String) (v : α)
    (s : CacheDir α) (t₀ t₁ : Nat)
    (hmax : 1 ≤ cfg.maxEntries)
    (hnd : (s.map (fun e => e.name)).Nodup)
    (hold : ∀ e ∈ s, e.timestamp < t₀) :
    (t₁ - t₀ ≤ cfg.ttlMs →
      cacheGet cfg t₁ ns key (cacheSet cfg t₀ ns key v s) =
        (some v, cacheSet cfg t₀ ns key v s)) ∧
    (cfg.ttlMs < t₁ - t₀ →
      (cacheGet cfg t₁ ns key (cacheSet cfg t₀ ns key v s)).1 = none ∧
      (∀ e ∈ (cacheGet cfg t₁ ns key (cacheSet cfg t₀ ns key v s)).2,
        e.name ≠ cacheFileName ns key) ∧
      statsTotalEntries (some ns) (cacheGet cfg t₁ ns key (cacheSet cfg t₀ ns key v s)).2 + 1 =
        statsTotalEntries (some ns) (cacheSet cfg t₀ ns key v s)) := by
  have hw1 : (⟨cacheFileName ns key, v, t₀⟩ : CacheEntry α) ∈
      writeRecord (cacheFileName ns key) v t₀ s := writeRecord_mem _ v t₀ s
  have hprec := writeRecord_precise (cacheFileName ns key) v t₀ s hnd
  have hdom : ∀ e ∈ writeRecord (cacheFileName ns key) v t₀ s,
      e = (⟨cacheFileName ns key, v, t₀⟩ : CacheEntry α) ∨
        e.timestamp < (⟨cacheFileName ns key, v, t₀⟩ : CacheEntry α).timestamp := by
    intro e he
    rcases hprec e he with h | h
    · exact Or.inl h
    · exact Or.inr (hold e h.1)
  have hs₁ : cacheSet cfg t₀ ns key v s =
      prune cfg (writeRecord (cacheFileName ns key) v t₀ s) := rfl
  have hw2 : (⟨cacheFileName ns key, v, t₀⟩ : CacheEntry α) ∈ cacheSet cfg t₀ ns key v s := by
    rw [hs₁]; exact prune_keeps_dominant cfg _ _ hmax hw1 hdom
  have hnd₁ : ((cacheSet cfg t₀ ns key v s).map (fun e => e.name)).Nodup := by
    rw [hs₁]; exact prune_nodup cfg _ (writeRecord_nodup _ v t₀ s hnd)
  have huniq : ∀ e ∈ cacheSet cfg t₀ ns key v s,
      e.name = (⟨cacheFileName ns key, v, t₀⟩ : CacheEntry α).name →
        e = (⟨cacheFileName ns key, v, t₀⟩ : CacheEntry α) := by
    intro e he hen
    rcases hprec e (prune_subset cfg _ e (hs₁ ▸ he)) with h | h
    · exact h
    · exact absurd hen h.2
  have hfind : (cacheSet cfg t₀ ns key v s).find?
      (fun e => e.name = cacheFileName ns key) = some (⟨cacheFileName ns key, v, t₀⟩ : CacheEntry α) :=
    find_name_unique _ _ hw2 huniq
  have hget := cacheGet_of_find cfg t₁ ns key (cacheSet cfg t₀ ns key v s) _ hfind
  constructor
  · intro hin
    rw [hget, if_neg (show ¬ cfg.ttlMs < t₁ - t₀ by omega)]
  · intro hout
    rw [hget, if_pos (show cfg.ttlMs < t₁ - t₀ from hout)]
    refine ⟨rfl, ?_, ?_⟩
    · intro e he hen
      have := (List.mem_filter.mp he).2
      simp [hen] at this
    · exact count_after_erase (statsMatch (some ns)) _ (cacheFileName_statsMatch ns key)
        (cacheSet cfg t₀ ns key v s) hw2 hnd₁

theorem writeRecord_fresh (name : String) (v : α) (t : Nat) :
    ∀ s : CacheDir α, (∀ e ∈ s, e.name ≠ name) →
      writeRecord name v t s = s ++ [⟨name, v, t⟩]
  | [], _ => rfl
  | e :: rest, h => by
    unfold writeRecord
    rw [if_neg (h e (List.mem_cons_self e rest)),
        writeRecord_fresh name v t rest (fun x hx => h x (List.mem_cons_of_mem e hx))]
    rfl

theorem insByTimeDesc_append (x : CacheEntry α) :
    ∀ l : CacheDir α, (∀ y ∈ l, x.timestamp ≤ y.timestamp) → insByTimeDesc x l = l ++ [x]
  | [], _ => rfl
  | y :: rest, h => by
    have hif : insByTimeDesc x (y :: rest) =
        if x.timestamp ≤ y.timestamp then y :: insByTimeDesc x rest else x :: y :: rest := rfl
    rw [hif, if_pos (h y (List.mem_cons_self y rest)),
        insByTimeDesc_append x rest (fun z hz => h z (List.mem_cons_of_mem y hz))]
    rfl

theorem sortByTimeDesc_incr :
    ∀ s : CacheDir α, s.Pairwise (fun a b => a.timestamp < b.timestamp) →
      sortByTimeDesc s = s.reverse
  | [], _ => rfl
  | a :: t, h => by
    have h1 : sortByTimeDesc (a :: t) = insByTimeDesc a (sortByTimeDesc t) := rfl
    have hp := List.pairwise_cons.mp h
    rw [h1, sortByTimeDesc_incr t hp.2,
        insByTimeDesc_append a t.reverse
          (fun y hy => le_of_lt (hp.1 y (List.mem_reverse.mp hy))),
        List.reverse_cons]

theorem take_reverse_eq (l : List β) (n : Nat) :
    l.reverse.take n = (l.drop (l.length - n)).reverse := by
  rw [← List.reverse_reverse (l.reverse.take n), List.reverse_take]
  simp

theorem prune_of_incr (cfg : CacheCfg) (s : CacheDir α)
    (hnd : (s.map (fun e => e.name)).Nodup)
    (hinc : s.Pairwise (fun a b => a.timestamp < b.timestamp)) :
    prune cfg s = s.drop (s.length - cfg.maxEntries) := by
  unfold prune
  by_cases hl : s.length ≤ cfg.maxEntries
  · rw [if_pos hl]
    have h0 : s.length - cfg.maxEntries = 0 := by omega
    rw [h0, List.drop_zero]
  · rw [if_neg hl]
    have hkept : (sortByTimeDesc s).take cfg.maxEntries =
        (s.drop (s.length - cfg.maxEntries)).reverse := by
      rw [sortByTimeDesc_incr s hinc, take_reverse_eq]
    rw [hkept]
    -- split the directory into the evicted prefix and the surviving suffix
    have hsplit := List.take_append_drop (s.length - cfg.maxEntries) s
    have hnd' : ((s.take (s.length - cfg.maxEntries)).map (fun e => e.name) ++
        (s.drop (s.length - cfg.maxEntries)).map (fun e => e.name)).Nodup := by
      rw [← List.map_append, hsplit]; exact hnd
    have hdisj := (List.nodup_append.mp hnd').2.2
    obtain ⟨L, hL⟩ : ∃ L, s.drop (s.length - cfg.maxEntries) = L := ⟨_, rfl⟩
    rw [hL] at hdisj ⊢
    conv_lhs => rw [← hsplit, hL]
    rw [List.filter_append]
    have htake : (s.take (s.length - cfg.maxEntries)).filter
        (fun e => (L.reverse).any (fun k => k.name = e.name)) = [] := by
      apply List.filter_eq_nil_iff.mpr
      intro e he hany
      obtain ⟨k, hk, hkname⟩ := List.any_eq_true.mp hany
      have hkn : k.name = e.name := by simpa using hkname
      exact hdisj (List.mem_map_of_mem (fun e => e.name) he)
        (by rw [← hkn]; exact List.mem_map_of_mem (fun e => e.name) (List.mem_reverse.mp hk))
    have hdrop : L.filter (fun e => (L.reverse).any (fun k => k.name = e.name)) = L := by
      apply List.filter_eq_self.mpr
      intro e he
      apply List.any_eq_true.mpr
      exact ⟨e, List.mem_reverse.mpr he, by simp⟩
    rw [htake, hdrop, List.nil_append]

theorem applyWrites_snoc (cfg : CacheCfg) (ws : List (CacheWrite α)) (w : CacheWrite α)
    (s : CacheDir α) :
    applyWrites cfg (ws ++ [w]) s =
      cacheSet cfg w.time w.ns w.key w.value (applyWrites cfg ws s) := by
  unfold applyWrites
  rw [List.foldl_append]
  rfl

theorem applyWrites_drop (cfg : CacheCfg) (hmax : 1 ≤ cfg.maxEntries) :
    ∀ ws : List (CacheWrite α),
      ((ws.map (fun w => (CacheWrite.entry w).name)).Nodup) →
      (ws.Pairwise (fun a b => a.time < b.time)) →
      applyWrites cfg ws [] =
        (ws.map CacheWrite.entry).drop (ws.length - cfg.maxEntries) := by
  intro ws
  induction ws using List.reverseRecOn with
  | nil => intro _ _; simp [applyWrites]
  | append_singleton ws w ih =>
    intro hnd hinc
    have hndm := hnd
    rw [List.map_append] at hndm
    obtain ⟨hndA, hndB, hdisj⟩ := List.nodup_append.mp hndm
    obtain ⟨hincA, hincB, hcross⟩ := List.pairwise_append.mp hinc
    have hprev := ih hndA hincA
    have hfresh : ∀ e ∈ applyWrites cfg ws ([] : CacheDir α),
        e.name ≠ cacheFileName w.ns w.key := by
      intro e he hen
      rw [hprev] at he
      have he' : e ∈ ws.map CacheWrite.entry := (List.drop_sublist _ _).subset he
      obtain ⟨u, hu, hue⟩ := List.mem_map.mp he'
      have hun : (CacheWrite.entry u).name = e.name := by rw [hue]
      exact hdisj (List.mem_map.mpr ⟨u, hu, hun.trans hen⟩)
        (List.mem_map.mpr ⟨w, List.mem_singleton_self w, rfl⟩)
    have hwr : writeRecord (cacheFileName w.ns w.key) w.value w.time
        (applyWrites cfg ws ([] : CacheDir α)) =
        applyWrites cfg ws ([] : CacheDir α) ++ [CacheWrite.entry w] :=
      writeRecord_fresh _ _ _ _ hfresh
    have happ : applyWrites cfg ws ([] : CacheDir α) ++ [CacheWrite.entry w] =
        ((ws ++ [w]).map CacheWrite.entry).drop (ws.length - cfg.maxEntries) := by
      rw [hprev, List.map_append,
        List.drop_append_of_le_length (by rw [List.length_map]; omega)]
      rfl
    have hcs : cacheSet cfg w.time w.ns w.key w.value (applyWrites cfg ws ([] : CacheDir α)) =
        prune cfg (((ws ++ [w]).map CacheWrite.entry).drop (ws.length - cfg.maxEntries)) := by
      show prune cfg _ = _
      rw [hwr, happ]
    have hndF : (((ws ++ [w]).map CacheWrite.entry).map (fun e => e.name)).Nodup := by
      rw [List.map_map]
      exact hnd
    have hndD : ((((ws ++ [w]).map CacheWrite.entry).drop (ws.length - cfg.maxEntries)).map
        (fun e => e.name)).Nodup :=
      hndF.sublist ((List.drop_sublist _ _).map (fun e : CacheEntry α => e.name))
    have hincF : ((ws ++ [w]).map CacheWrite.entry).Pairwise
        (fun a b => a.timestamp < b.timestamp) := List.pairwise_map.mpr hinc
    have hincD := hincF.sublist
      (List.drop_sublist (ws.length - cfg.maxEntries) ((ws ++ [w]).map CacheWrite.entry))
    rw [applyWrites_snoc, hcs, prune_of_incr cfg _ hndD hincD, List.drop_drop]
    congr 1
    simp only [List.length_drop, List.length_append, List.length_map, List.length_singleton]
    omega

/-- **C5** — count-bounded eviction invariant.  For writes of
pairwise-distinct record file names with strictly increasing write
times, `maxEntries + N` consecutive `set` calls (into any mix of
namespaces — the directory, and hence the pruning, is global) leave
exactly the `maxEntries` newest records: the state is precisely the
written records with the oldest `N` dropped, its size is exactly
`maxEntries`, and every surviving record was written strictly later
than every evicted write.  The default capacity is 100. -/
theorem c5_eviction_invariant (cfg : CacheCfg) (ws : List (CacheWrite α)) (N : Nat)
    (hmax : 1 ≤ cfg.maxEntries)
    (hnd : (ws.map (fun w => (CacheWrite.entry w).name)).Nodup)
    (hinc : ws.Pairwise (fun a b => a.time < b.time))
    (hlen : ws.length = cfg.maxEntries + N) :
    defaultCacheCfg.maxEntries = 100 ∧
    applyWrites cfg ws [] = (ws.map CacheWrite.entry).drop N ∧
    (applyWrites cfg ws []).length = cfg.maxEntries ∧
    ∀ e ∈ applyWrites cfg ws [], ∀ u ∈ ws.take N, u.time < e.timestamp := by
  have hdropEq := applyWrites_drop cfg hmax ws hnd hinc
  have hN : ws.length - cfg.maxEntries = N := by omega
  rw [hN] at hdropEq
  refine ⟨rfl, hdropEq, ?_, ?_⟩
  · rw [hdropEq, List.length_drop, List.length_map]
    omega
  · intro e he u hu
    rw [hdropEq, ← List.map_drop] at he
    obtain ⟨x, hx, hxe⟩ := List.mem_map.mp he
    have hinc' := hinc
    rw [← List.take_append_drop N ws] at hinc'
    have hcross := (List.pairwise_append.mp hinc').2.2
    have hux : u.time < x.time := hcross u hu x hx
    rw [← hxe]
    exact hux

/-- Concrete eviction instance: capacity 2, three writes at times 10,
20, 30 across two namespaces; the state afterwards is exactly the two
newest records. -/
theorem c5_eviction_invariant_witness :
    applyWrites ⟨1000, 2⟩
        [⟨"a", "k1", 1, 10⟩, ⟨"b", "k2", 2, 20⟩, ⟨"a", "k3", 3, 30⟩] ([] : CacheDir Nat) =
      (([⟨"a", "k1", 1, 10⟩, ⟨"b", "k2", 2, 20⟩, ⟨"a", "k3", 3, 30⟩] :
        List (CacheWrite Nat)).map CacheWrite.entry).drop 1 ∧
    (applyWrites ⟨1000, 2⟩
        [⟨"a", "k1", 1, 10⟩, ⟨"b", "k2", 2, 20⟩, ⟨"a", "k3", 3, 30⟩]
        ([] : CacheDir Nat)).length = 2 :=
  ⟨(c5_eviction_invariant ⟨1000, 2⟩
      [⟨"a", "k1", 1, 10⟩, ⟨"b", "k2", 2, 20⟩, ⟨"a", "k3", 3, 30⟩] 1
      (by decide) (by decide) (by decide) rfl).2.1,
   (c5_eviction_invariant ⟨1000, 2⟩
      [⟨"a", "k1", 1, 10⟩, ⟨"b", "k2", 2, 20⟩, ⟨"a", "k3", 3, 30⟩] 1
      (by decide) (by decide) (by decide) rfl).2.2.1⟩

/-- Concrete round-trip instance: with TTL 100 ms and capacity 2, a value
written at `t = 10` is returned unchanged at `t = 50`, and at `t = 200`
the read misses and the stats count for the namespace drops by one. -/
theorem c4_cache_roundtrip_witness :
    (50 - 10 ≤ (100 : Nat) ∧
      cacheGet ⟨100, 2⟩ 50 "ns" "k" (cacheSet ⟨100, 2⟩ 10 "ns" "k" (5 : Nat) []) =
        (some 5, cacheSet ⟨100, 2⟩ 10 "ns" "k" (5 : Nat) [])) ∧
    ((100 : Nat) < 200 - 10 ∧
      (cacheGet ⟨100, 2⟩ 200 "ns" "k" (cacheSet ⟨100, 2⟩ 10 "ns" "k" (5 : Nat) [])).1 = none ∧
      statsTotalEntries (some "ns")
          (cacheGet ⟨100, 2⟩ 200 "ns" "k" (cacheSet ⟨100, 2⟩ 10 "ns" "k" (5 : Nat) [])).2 + 1 =
        statsTotalEntries (some "ns") (cacheSet ⟨100, 2⟩ 10 "ns" "k" (5 : Nat) [])) :=
  ⟨⟨by decide,
    (c4_cache_roundtrip ⟨100, 2⟩ "ns" "k" 5 [] 10 50 (by decide) (by simp)
      (by intro e he; exact absurd he (List.not_mem_nil e))).1 (by decide)⟩,
   ⟨by decide,
    ((c4_cache_roundtrip ⟨100, 2⟩ "ns" "k" 5 [] 10 200 (by decide) (by simp)
      (by intro e he; exact absurd he (List.not_mem_nil e))).2 (by decide)).1,
    ((c4_cache_roundtrip ⟨100, 2⟩ "ns" "k" 5 [] 10 200 (by decide) (by simp)
      (by intro e he; exact absurd he (List.not_mem_nil e))).2 (by decide)).2.2⟩⟩

end Exai
